import Mathlib

/-!
Verification of the document chunking / lexical retrieval core of the
CodeDoc Analyzer API (`src/api/main.py`).

The embedding models the four pure core functions of the source:

* `basic_chunk`   — `re.split(r"\n{2,}|(?m)^#+\s", text)` followed by greedy
  packing into `max_chars`-bounded buffers, then per-segment `strip()` and
  dropping of empty segments.
* `pick_top_k`    — lexical-overlap scoring (`\b\w{3,}\b` token sets of the
  lowercased texts), a stable descending sort on the score, and a Python
  slice `[:k]`.
* `flatten_semantic_json` — rendering of the analyzer's JSON fact list into
  a line-oriented text block, with Python's dynamic-typing failure modes
  (AttributeError / TypeError) made explicit in an `Except` result.
* the prompt f-string of the `/api/analyze` handler (`buildPrompt` below).

Modelling notes, applying to the whole file:
* Strings are Lean `String`s; the scanning logic works on `List Char`.
* Python's `\w`, `\s`, `str.lower` and `str.strip` are modelled over the
  ASCII range (the analyzer emits ASCII identifiers); non-ASCII word
  characters are not modelled.
* The chunker is modelled in two layers. The module can only be imported on
  Python 3.12 and later: the prompt f-string (main.py line 141) holds a
  backslash inside an expression part, a SyntaxError on every earlier
  version. On 3.11 and later, the mid-pattern `(?m)` global flag of
  `re.split(r"\n{2,}|(?m)^#+\s", text)` is a hard `re.error` ("global flags
  not at the start of the expression"), raised when the pattern is compiled,
  before any splitting. So on every interpreter that can import the module,
  `basic_chunk` raises `re.error` on every call. `basic_chunk_run` models
  this actual behaviour (the compile check `midGlobalFlags` on the literal
  pattern `chunkPattern`, then the split); `basic_chunk` models the intended
  semantics of the split — the branch `basic_chunk_run` can never take —
  with `(?m)` read as a global MULTILINE flag, which is how Python 3.10 and
  earlier (which merely warn, but cannot parse the module's f-string)
  interpret such a pattern and what the surrounding code evidently intends.
* Integer-valued parameters (`max_chars`, `k`) are `Int`, so that the
  behaviour at non-positive values (claim C6) is representable; Python's
  negative-index slice semantics is modelled in `pySliceTake`.
-/

/-- Python `\s` over the ASCII range: space, tab, newline, carriage return,
vertical tab, form feed. Used both by the `^#+\s` alternative of the chunker's
split pattern and by `str.strip`. -/
def pySpace (c : Char) : Bool :=
  c = ' ' || c = '\t' || c = '\n' || c = '\r' || c = Char.ofNat 11 || c = Char.ofNat 12

/-- Python `\w` over the ASCII range: letters, digits, underscore. -/
def wordChar (c : Char) : Bool :=
  ('a' ≤ c && c ≤ 'z') || ('A' ≤ c && c ≤ 'Z') || ('0' ≤ c && c ≤ '9') || c = '_'

/-- Python `str.strip()` on a character list: drop leading and trailing
whitespace. -/
def pyStrip (l : List Char) : List Char :=
  ((l.dropWhile pySpace).reverse.dropWhile pySpace).reverse

/-- `str.strip()` on a `String`. -/
def pyStripStr (s : String) : String := String.mk (pyStrip s.data)

/-- One scanning step of `re.split(r"\n{2,}|^#+\s", text, re.MULTILINE)`.

`b` is true when the current position is a line start (string start or right
after a `'\n'`), which is where the `^` anchor of the second alternative
matches; `acc` holds the characters of the fragment under construction in
reverse. The regex engine scans left to right and at each position first
tries `\n{2,}` (a greedy run of at least two newlines) and then `^#+\s`
(at a line start, a greedy run of `#` followed by exactly one whitespace
character; backtracking to a shorter `#`-run never helps because the next
character would again be `#`). On a match the fragment so far is emitted
and the match consumed; otherwise one character is added to the fragment. -/
def splitter (b : Bool) (acc : List Char) (l : List Char) : List (List Char) :=
  match l with
  | [] => [acc.reverse]
  | c :: rest =>
    if c = '\n' ∧ rest.head? = some '\n' then
      acc.reverse :: splitter true [] (rest.dropWhile (fun x => decide (x = '\n')))
    else if c = '#' ∧ b = true ∧
        (∃ w, (rest.dropWhile (fun x => decide (x = '#'))).head? = some w ∧ pySpace w = true) then
      acc.reverse ::
        splitter (decide ((rest.dropWhile (fun x => decide (x = '#'))).head? = some '\n')) []
          (rest.dropWhile (fun x => decide (x = '#'))).tail
    else
      splitter (decide (c = '\n')) (c :: acc) rest
termination_by l.length
decreasing_by
  · exact Nat.lt_succ_of_le (List.dropWhile_suffix _).length_le
  · exact Nat.lt_succ_of_le (Nat.le_trans (Nat.le_trans (Nat.le_of_eq (List.length_tail _))
      (Nat.sub_le _ _)) (List.dropWhile_suffix _).length_le)
  · exact Nat.lt_succ_self _

/-- The unit list of `basic_chunk`: `re.split(r"\n{2,}|(?m)^#+\s", text)`. -/
def splitUnits (text : List Char) : List (List Char) := splitter true [] text

/-- String-level view of the split, for stating claims about units. -/
def pySplitUnits (text : String) : List String := (splitUnits text.data).map String.mk

/-- `buf += ("\n\n" + part) if buf else part` of `basic_chunk`. -/
def joinBuf (buf part : List Char) : List Char :=
  if buf = [] then part else buf ++ '\n' :: '\n' :: part

/-- The greedy packing loop of `basic_chunk`: while the next unit (plus the
two-character separator) keeps the buffer within `maxChars`, append it,
otherwise flush the buffer (when non-empty) and start over from the unit;
a final non-empty buffer is flushed after the loop. -/
def packGo (maxChars : Int) : List Char → List (List Char) → List (List Char)
  | buf, [] => if buf = [] then [] else [buf]
  | buf, part :: parts =>
    if (buf.length : Int) + part.length + 2 ≤ maxChars then
      packGo maxChars (joinBuf buf part) parts
    else if buf = [] then
      packGo maxChars part parts
    else
      buf :: packGo maxChars part parts

/-- `basic_chunk` on character lists: split into units, pack greedily,
then `[c.strip() for c in out if c.strip()]`. -/
def chunkL (text : List Char) (maxChars : Int) : List (List Char) :=
  ((packGo maxChars [] (splitUnits text)).map pyStrip).filter (fun c => decide (¬ c = []))

/-- `basic_chunk(text, max_chars)` of `src/api/main.py` (default 1500):
the INTENDED semantics of the function. On every Python able to import the
module the real function raises `re.error` before splitting; see
`basic_chunk_run` below. -/
def basic_chunk (text : String) (maxChars : Int) : List String :=
  (chunkL text.data maxChars).map String.mk

/-- The raw source of the chunker's split pattern, `r"\n\x7b2,\x7d|(?m)^#+\s"`
character by character: `\ n \x7b 2 , \x7d | ( ? m ) ^ # + \ s`. The inline
`(?m)` group starts at offset 7, not at the start of the pattern. -/
def chunkPattern : String := "\\n\x7b2,\x7d|(?m)^#+\\s"

/-- An inline regex flag letter (`re`'s `a i L m s u x`). -/
def flagChar (c : Char) : Bool :=
  c = 'a' || c = 'i' || c = 'L' || c = 'm' || c = 's' || c = 'u' || c = 'x'

/-- After `(?` and one flag letter: the rest of an inline flags-only group is
zero or more further flag letters closed by `)`. -/
def flagRest : List Char → Bool
  | [] => false
  | c :: rest => c = ')' || (flagChar c && flagRest rest)

/-- Whether a position (given as the suffix starting there) begins an inline
global-flags group `(?F)` with `F` a non-empty run of flag letters. -/
def flagGroupAt : List Char → Bool
  | '(' :: '?' :: c :: rest => flagChar c && flagRest rest
  | _ => false

/-- Whether any suffix of the list begins an inline global-flags group. -/
def anyFlagGroup : List Char → Bool
  | [] => false
  | c :: rest => flagGroupAt (c :: rest) || anyFlagGroup rest

/-- CPython's pattern-compile check (Python 3.11+): an inline global-flags
group anywhere but at the very start of the pattern raises
`re.error("global flags not at the start of the expression")`. This detects
such a group at any position after the first character. -/
def midGlobalFlags (p : String) : Bool :=
  match p.data with
  | [] => false
  | _ :: rest => anyFlagGroup rest

/-- Python `str.lower()`, per character (ASCII-faithful). -/
def pyLower (s : String) : String := String.mk (s.data.map Char.toLower)

/-- Scanner for the maximal word-character runs of a character list: `cur`
holds the run in progress, reversed. -/
def tokenRunsAux (cur : List Char) : List Char → List (List Char)
  | [] => if cur = [] then [] else [cur.reverse]
  | c :: cs =>
    if wordChar c then tokenRunsAux (c :: cur) cs
    else if cur = [] then tokenRunsAux [] cs
    else cur.reverse :: tokenRunsAux [] cs

/-- Maximal runs of word characters of a character list, in order. This is
the run structure underlying `re.findall(r"\b\w{3,}\b", s)`: a match of that
pattern is exactly a maximal word-character run of length at least 3. -/
def tokenRuns (l : List Char) : List (List Char) := tokenRunsAux [] l

theorem tokenRunsAux_ne (cs : List Char) : ∀ cur : List Char, cur ≠ [] →
    tokenRunsAux cur cs =
      (cur.reverse ++ cs.takeWhile wordChar) :: tokenRunsAux [] (cs.dropWhile wordChar) := by
  induction cs with
  | nil => intro cur h; simp [tokenRunsAux, h]
  | cons c cs ih =>
    intro cur h
    by_cases hw : wordChar c
    · rw [tokenRunsAux, if_pos hw, ih (c :: cur) (by simp),
        List.takeWhile_cons_of_pos hw, List.dropWhile_cons_of_pos hw]
      simp
    · rw [tokenRunsAux, if_neg hw, if_neg h,
        List.takeWhile_cons_of_neg hw, List.dropWhile_cons_of_neg hw]
      have h2 : tokenRunsAux [] (c :: cs) = tokenRunsAux [] cs := by
        rw [tokenRunsAux, if_neg hw, if_pos rfl]
      simp [h2]

/-- Unfolding of `tokenRuns` in the shape of the regex scan: a word character
starts the maximal run containing it, anything else is skipped. -/
theorem tokenRuns_cons (c : Char) (cs : List Char) :
    tokenRuns (c :: cs) =
      if wordChar c then (c :: cs.takeWhile wordChar) :: tokenRuns (cs.dropWhile wordChar)
      else tokenRuns cs := by
  by_cases hw : wordChar c
  · rw [tokenRuns, tokenRunsAux, if_pos hw, if_pos hw, tokenRunsAux_ne _ _ (by simp)]
    simp [tokenRuns]
  · rw [tokenRuns, tokenRunsAux, if_neg hw, if_pos rfl, if_neg hw, tokenRuns]

/-- `re.findall(r"\b\w{3,}\b", s.lower())` of `pick_top_k`: the maximal
word-character runs of the lowercased text that have length at least 3. -/
def tokens (s : String) : List String :=
  ((tokenRuns (pyLower s).data).filter (fun r => decide (3 ≤ r.length))).map String.mk

/-- `set(re.findall(...))`: the token set of a text. -/
def tokenSet (s : String) : Finset String := (tokens s).toFinset

/-- `len(q_terms & terms)`: the candidate score of `pick_top_k`. -/
def overlapScore (q t : String) : Nat := ((tokenSet q) ∩ (tokenSet t)).card

/-- The `scored` list of `pick_top_k`: each candidate paired with its score. -/
def scoredList (q : String) (docs : List String) : List (Nat × String) :=
  docs.map (fun t => (overlapScore q t, t))

/-- `scored.sort(key=lambda x: x[0], reverse=True)`: Python's sort is stable,
and with `reverse=True` equal-key elements still keep their relative order.
Insertion sort with the relation `b.1 ≤ a.1` (insert an earlier element
before the first later element whose key is not larger) is exactly that
stable descending sort; stability and sortedness are proved below. -/
def sortScored (l : List (Nat × String)) : List (Nat × String) :=
  l.insertionSort (fun a b => b.1 ≤ a.1)

/-- Python slice `l[:k]` for an `int` bound `k`: a non-negative `k` takes the
first `min k (length l)` elements; a negative `k` drops the last `-k`. -/
def pySliceTake (k : Int) (l : List α) : List α :=
  if k < 0 then l.take (l.length - (-k).toNat) else l.take k.toNat

/-- `pick_top_k(query_text, doc_texts, k)` of `src/api/main.py` (default 6). -/
def pick_top_k (query_text : String) (doc_texts : List String) (k : Int) : List String :=
  (pySliceTake k (sortScored (scoredList query_text doc_texts))).map Prod.snd

/-- The text of the prompt f-string of the `/api/analyze` handler, up to the
first interpolation `{...join(selected)...}`. The f-string is indented inside
the handler, so every line after the first carries eight leading spaces. -/
def promptHead : String :=
  "You are a technical writer.\n        Goal: Produce business-facing documentation (audience: PMs, QA, leadership).\n\n        Existing documentation snippets (authoritative, prefer these when conflicts arise):\n        "

/-- The prompt text between the `selected` interpolation and `{sem_text}`. -/
def promptMid : String :=
  "\n\n        Extracted semantic summary (from code analysis):\n        ---BEGIN SEMANTIC SUMMARY---\n        "

/-- The prompt text after `{sem_text}`, up to the closing `\"\"\"`. -/
def promptTail : String :=
  "\n        ---END SEMANTIC SUMMARY---\n\n        Tasks:\n        1) Write a cohesive overview: problem solved, core capabilities, key modules, and business value.\n        2) Resolve conflicts in favor of the existing snippets (if any).\n        3) List unclear areas under \"Open Questions\".\n        4) Keep it concise and executive-friendly (~800–1200 words).\n        "

/-- The prompt assembled by the `/api/analyze` handler:
`f"""...{("\n\n---\n".join(selected)) if selected else "(no extra docs provided)"}...{sem_text}..."""`. -/
def buildPrompt (sem_text : String) (selected : List String) : String :=
  promptHead ++
    (if selected = [] then "(no extra docs provided)"
     else String.intercalate "\n\n---\n" selected) ++
    promptMid ++ sem_text ++ promptTail

/-- Decidable substring test used to state "contains" facts about strings:
`isPrefixL p l` holds when `p` is an initial run of `l`. -/
def isPrefixL : List Char → List Char → Bool
  | [], _ => true
  | _ :: _, [] => false
  | x :: ps, y :: qs => decide (x = y) && isPrefixL ps qs

/-- `occursIn p l`: the character list `p` occurs contiguously inside `l`. -/
def occursIn (pat : List Char) : List Char → Bool
  | [] => isPrefixL pat []
  | c :: rest => isPrefixL pat (c :: rest) || occursIn pat rest

/-- `strOccurs pat s`: the string `pat` occurs as a substring of `s`. -/
def strOccurs (pat s : String) : Bool := occursIn pat.data s.data

/-- JSON values, as produced by `json.loads` on the analyzer's output.
Numbers are modelled as integers (the fact documents relevant here carry
no numeric fields; floats are outside the model). -/
inductive Json where
  | null : Json
  | bool : Bool → Json
  | num : Int → Json
  | str : String → Json
  | arr : List Json → Json
  | obj : List (String × Json) → Json

/-- The Python exceptions the modelled code can actually raise:
`AttributeError` (calling `.get` on a non-dict item) and `TypeError`
(iterating a non-iterable document, or `str.join` over non-string elements)
in `flatten_semantic_json`, and `re.error` (the mid-pattern global flag of
the split pattern, Python 3.11+) in `basic_chunk`. There is no further
structured error in the code. -/
inductive PyErr where
  | attributeError : PyErr
  | typeError : PyErr
  | reError : PyErr
deriving DecidableEq

/-- What `basic_chunk` actually does on every Python able to import the
module (3.12+, forced by the handler's f-string): `re.split` first compiles
its pattern, and compiling `chunkPattern` raises
`re.error("global flags not at the start of the expression")` for the
mid-pattern `(?m)`; only if the compile succeeded would the intended
splitting (`basic_chunk`) run. -/
def basic_chunk_run (text : String) (maxChars : Int) : Except PyErr (List String) :=
  if midGlobalFlags chunkPattern then Except.error PyErr.reError
  else Except.ok (basic_chunk text maxChars)

/-- Python `dict` lookup on a key/value list: the last binding of a
duplicated key wins (as in `json.loads`). -/
def dictGet (kvs : List (String × Json)) (key : String) : Option Json :=
  match kvs with
  | [] => none
  | (k, v) :: rest =>
    match dictGet rest key with
    | some w => some w
    | none => if key = k then some v else none

/-- Python `dict` iteration order on a key/value list: keys in first-insertion
order, without duplicates. -/
def dictKeys : List (String × Json) → List String
  | [] => []
  | (k, _) :: rest => k :: (dictKeys rest).filter (fun k2 => decide (¬ k2 = k))

/-- Python truthiness of a JSON value (`if classes:` and `x or []`). -/
def pyTruthy : Json → Bool
  | .null => false
  | .bool b => b
  | .num n => decide (¬ n = 0)
  | .str s => decide (¬ s = "")
  | .arr [] => false
  | .arr (_ :: _) => true
  | .obj [] => false
  | .obj (_ :: _) => true

/-- `item.get(key, dflt)`: a dict lookup with default; on any non-dict item
(the element of a malformed fact document) Python raises `AttributeError`. -/
def pyGet (item : Json) (key : String) (dflt : Json) : Except PyErr Json :=
  match item with
  | .obj kvs => .ok ((dictGet kvs key).getD dflt)
  | _ => .error .attributeError

mutual

/-- Python `repr` of a JSON-shaped value, reached by `str()` on non-string
values (string escaping details beyond quoting are elided; no claim
evaluates `repr` on strings needing escapes). -/
def pyRepr : Json → String
  | Json.null => "None"
  | Json.bool true => "True"
  | Json.bool false => "False"
  | Json.num n => toString n
  | Json.str s => "\x27" ++ s ++ "\x27"
  | Json.arr xs => "[" ++ String.intercalate ", " (pyReprList xs) ++ "]"
  | Json.obj kvs => "\x7b" ++ String.intercalate ", " (pyReprObj kvs) ++ "\x7d"

/-- `repr` of the elements of a list value. -/
def pyReprList : List Json → List String
  | [] => []
  | x :: xs => pyRepr x :: pyReprList xs

/-- `repr` of the entries of a dict value. -/
def pyReprObj : List (String × Json) → List String
  | [] => []
  | (k, v) :: kvs => ("\x27" ++ k ++ "\x27: " ++ pyRepr v) :: pyReprObj kvs

end

/-- Python `str()` of a value interpolated into an f-string. -/
def pyRenderVal : Json → String
  | Json.str s => s
  | v => pyRepr v

/-- One element of a joined iterable: `str.join` requires every element to
be a string, else Python raises `TypeError`. -/
def pyStrElem : Json → Except PyErr String
  | Json.str s => Except.ok s
  | _ => Except.error PyErr.typeError

/-- Python `sep.join(v)`: joins an iterable of strings. A string joins its
characters; a list must consist of strings (else `TypeError`); a dict joins
its keys; anything else is not iterable (`TypeError`). -/
def pyJoin (sep : String) (v : Json) : Except PyErr String :=
  match v with
  | .str s => .ok (String.intercalate sep (s.data.map (fun ch => String.mk [ch])))
  | .arr xs => do
      let ss ← xs.mapM pyStrElem
      .ok (String.intercalate sep ss)
  | .obj kvs => .ok (String.intercalate sep (dictKeys kvs))
  | _ => .error .typeError

/-- `for item in data`: iterating a JSON value. A list yields its elements,
a string its characters (as one-character strings), a dict its keys;
`None`, booleans and numbers are not iterable (`TypeError`). -/
def iterItems : Json → Except PyErr (List Json)
  | .arr xs => .ok xs
  | .str s => .ok (s.data.map (fun ch => Json.str (String.mk [ch])))
  | .obj kvs => .ok ((dictKeys kvs).map Json.str)
  | _ => .error .typeError

/-- The loop body of `flatten_semantic_json` for one record: the
`Project:`/`File:` lines, the conditional `Classes:`/`Methods:`/`Comments:`
lines (after `item.get(...) or []`), and the trailing blank separator
line. -/
def flattenItem (item : Json) : Except PyErr (List String) := do
  let proj ← pyGet item "Project" (Json.str "")
  let file ← pyGet item "File" (Json.str "")
  let classes0 ← pyGet item "Classes" Json.null
  let methods0 ← pyGet item "Methods" Json.null
  let comments0 ← pyGet item "Comments" Json.null
  let classes := if pyTruthy classes0 then classes0 else Json.arr []
  let methods := if pyTruthy methods0 then methods0 else Json.arr []
  let comments := if pyTruthy comments0 then comments0 else Json.arr []
  let l1 := ["Project: " ++ pyRenderVal proj, "File: " ++ pyRenderVal file]
  let l2 ← if pyTruthy classes then do
      let j ← pyJoin ", " classes
      pure ["  Classes: " ++ j]
    else pure []
  let l3 ← if pyTruthy methods then do
      let j ← pyJoin ", " methods
      pure ["  Methods: " ++ j]
    else pure []
  let l4 ← if pyTruthy comments then do
      let j ← pyJoin " | " comments
      pure ["  Comments: " ++ j]
    else pure []
  pure (l1 ++ l2 ++ l3 ++ l4 ++ [""])

/-- The `for item in data` loop of `flatten_semantic_json`, accumulating
lines left to right; the first Python exception aborts the whole call. -/
def flattenLoop : List Json → Except PyErr (List String)
  | [] => .ok []
  | item :: rest => do
      let ls ← flattenItem item
      let more ← flattenLoop rest
      pure (ls ++ more)

/-- `flatten_semantic_json` of `src/api/main.py`, applied to the parsed JSON
document (the source reads and `json.loads` the file first; the parsed value
is the input here): iterate the document, render each record, and join all
lines with newlines. -/
def flatten_semantic_json (data : Json) : Except PyErr String := do
  let items ← iterItems data
  let lines ← flattenLoop items
  pure (String.intercalate "\n" lines)

/-- Specification-side description of a token (claim C4 / spec §4.2): a
maximal run of word characters inside the lowercased text — a non-empty
all-word-character block whose left neighbour (if any) and right neighbour
(if any) are not word characters. -/
def IsMaxWordRun (s w : String) : Prop :=
  w.data ≠ [] ∧ (∀ c ∈ w.data, wordChar c = true) ∧
  ∃ a b, (pyLower s).data = a ++ w.data ++ b ∧
    (∀ c, a.getLast? = some c → wordChar c = false) ∧
    (∀ c, b.head? = some c → wordChar c = false)

/-- A well-formed fact record of the analyzer contract (spec §6): optional
`Project` and `File` strings and string arrays `Classes`, `Methods`,
`Comments`. -/
structure FactRecord where
  project : Option String
  file : Option String
  classes : List String
  methods : List String
  comments : List String

/-- The JSON object a `FactRecord` denotes. -/
def FactRecord.toJson (r : FactRecord) : Json :=
  Json.obj ((r.project.map (fun p => ("Project", Json.str p))).toList ++
    (r.file.map (fun f => ("File", Json.str f))).toList ++
    [("Classes", Json.arr (r.classes.map Json.str)),
     ("Methods", Json.arr (r.methods.map Json.str)),
     ("Comments", Json.arr (r.comments.map Json.str))])

/-- The lines `flatten_semantic_json` renders for one well-formed record:
`Project:`/`File:` lines (missing fields as empty strings), the
`Classes:`/`Methods:`/`Comments:` lines only when the corresponding list is
non-empty, and a blank separator line. -/
def recordLines (r : FactRecord) : List String :=
  ["Project: " ++ r.project.getD "", "File: " ++ r.file.getD ""] ++
  (if r.classes = [] then [] else ["  Classes: " ++ String.intercalate ", " r.classes]) ++
  (if r.methods = [] then [] else ["  Methods: " ++ String.intercalate ", " r.methods]) ++
  (if r.comments = [] then [] else ["  Comments: " ++ String.intercalate " | " r.comments]) ++
  [""]

/-- `noHash s`: the text contains no `#` character, so no heading match of
the chunker's split pattern can occur in it (hypothesis of the amended
claim C9). -/
def noHash (s : String) : Bool := s.data.all (fun c => decide (¬ c = '#'))

/-- Reconstruction of a buffer from the units packed into it: the units
joined with the two-character `"\n\n"` separator. -/
def joinUnits : List (List Char) → List Char
  | [] => []
  | [u] => u
  | u :: us => u ++ '\n' :: '\n' :: joinUnits us

/-- The buffer after one step of the packing loop of `basic_chunk`. -/
def packStepBuf (M : Int) (buf u : List Char) : List Char :=
  if (buf.length : Int) + u.length + 2 ≤ M then joinBuf buf u else u

/-- The segments flushed by one step of the packing loop. -/
def packStepOut (M : Int) (buf u : List Char) : List (List Char) :=
  if (buf.length : Int) + u.length + 2 ≤ M then [] else if buf = [] then [] else [buf]

/-- The buffer after the packing loop has consumed a unit list. -/
def bufAfter (M : Int) : List Char → List (List Char) → List Char
  | buf, [] => buf
  | buf, u :: us => bufAfter M (packStepBuf M buf u) us

/-- All segments flushed while the packing loop consumes a unit list
(excluding the final flush). -/
def emitted (M : Int) : List Char → List (List Char) → List (List Char)
  | _, [] => []
  | buf, u :: us => packStepOut M buf u ++ emitted M (packStepBuf M buf u) us

/-- No two adjacent newlines: such a character list contains no match of
the `\n{2,}` alternative of the split pattern. -/
def noNN (l : List Char) : Prop :=
  List.Chain' (fun a b => ¬ (a = '\n' ∧ b = '\n')) l

/-- A unit group the stays-ahead argument can play against: non-empty, and
either its join fits the bound or it is a single (possibly oversized)
unit. -/
def GroupOK (M : Int) (G : List (List Char)) : Prop :=
  G ≠ [] ∧ (((joinUnits G).length : Int) ≤ M ∨ ∃ u, G = [u])

instance : IsTotal (Nat × String) (fun a b => b.1 ≤ a.1) :=
  ⟨fun a b => Nat.le_total b.1 a.1⟩

instance : IsTrans (Nat × String) (fun a b => b.1 ≤ a.1) :=
  ⟨fun _ _ _ h1 h2 => Nat.le_trans h2 h1⟩

theorem sortScored_perm (l : List (Nat × String)) : (sortScored l).Perm l :=
  List.perm_insertionSort _ l

theorem sortScored_length (l : List (Nat × String)) : (sortScored l).length = l.length :=
  List.length_insertionSort _ l

theorem sortScored_sorted (l : List (Nat × String)) :
    List.Pairwise (fun a b => b.1 ≤ a.1) (sortScored l) :=
  List.sorted_insertionSort _ l

theorem scoredList_map_snd (q : String) (c : List String) :
    (scoredList q c).map Prod.snd = c := by
  simp [scoredList, List.map_map, Function.comp_def]

theorem pySliceTake_eq_take (k : Int) (l : List α) : ∃ n, pySliceTake k l = l.take n := by
  unfold pySliceTake
  split
  · exact ⟨_, rfl⟩
  · exact ⟨_, rfl⟩

theorem pySliceTake_sublist (k : Int) (l : List α) : (pySliceTake k l).Sublist l := by
  obtain ⟨n, hn⟩ := pySliceTake_eq_take k l
  rw [hn]
  exact List.take_sublist n l

theorem pick_top_k_sublist (q : String) (c : List String) (k : Int) :
    (pick_top_k q c k).Sublist ((sortScored (scoredList q c)).map Prod.snd) :=
  (pySliceTake_sublist _ _).map _

theorem sorted_map_snd_perm (q : String) (c : List String) :
    ((sortScored (scoredList q c)).map Prod.snd).Perm c := by
  have h := (sortScored_perm (scoredList q c)).map Prod.snd
  rwa [scoredList_map_snd] at h

/-- Claim C2: for every query `Q`, candidate list `C` and positive `k`,
`pick_top_k(Q, C, k)` has length exactly `min k (len C)`; for empty `C` the
result is empty for every `Q` and every `k`. -/
theorem claim_C2_topk_length (Q : String) (C : List String) (k : Int) :
    (0 < k → (pick_top_k Q C k).length = min k.toNat C.length) ∧
    (C = [] → pick_top_k Q C k = []) := by
  constructor
  · intro hk
    have hns : ¬ k < 0 := by omega
    simp [pick_top_k, pySliceTake, if_neg hns, sortScored_length, scoredList]
  · rintro rfl
    simp [pick_top_k, pySliceTake, sortScored, scoredList, List.insertionSort]

theorem claim_C2_topk_length_witness :
    ((pick_top_k "alpha beta" ["beta and beta", "delta"] 1).length =
      min (1 : Int).toNat 2) ∧ pick_top_k "alpha beta" ([] : List String) 7 = [] :=
  ⟨(claim_C2_topk_length "alpha beta" ["beta and beta", "delta"] 1).1 (by decide),
   (claim_C2_topk_length "alpha beta" [] 7).2 rfl⟩

/-- Claim C10: every element of `pick_top_k(Q, C, k)` is one of the strings
of `C`, and each candidate occurs in the output at most as often as in `C`:
the retriever selects candidates and never synthesizes or modifies text. -/
theorem claim_C10_topk_selection (Q : String) (C : List String) (k : Int) (hk : 0 < k) :
    (∀ t ∈ pick_top_k Q C k, t ∈ C) ∧
    (∀ t, (pick_top_k Q C k).count t ≤ C.count t) := by
  have hsub := pick_top_k_sublist Q C k
  have hperm := sorted_map_snd_perm Q C
  constructor
  · intro t ht
    exact hperm.mem_iff.mp (hsub.subset ht)
  · intro t
    calc (pick_top_k Q C k).count t ≤ _ := hsub.count_le t
      _ = C.count t := hperm.count_eq t

theorem claim_C10_topk_selection_witness :
    (∀ t ∈ pick_top_k "the query terms" ["terms here", "query terms", "other"] 2,
      t ∈ ["terms here", "query terms", "other"]) ∧
    (∀ t, (pick_top_k "the query terms" ["terms here", "query terms", "other"] 2).count t ≤
      (["terms here", "query terms", "other"] : List String).count t) :=
  claim_C10_topk_selection "the query terms" ["terms here", "query terms", "other"] 2
    (by decide)

theorem orderedInsert_filter_eq (x : Nat × String) (s : Nat) (hx : x.1 = s) :
    ∀ l : List (Nat × String),
      (l.orderedInsert (fun a b => b.1 ≤ a.1) x).filter (fun p => decide (p.1 = s)) =
        x :: l.filter (fun p => decide (p.1 = s))
  | [] => by subst hx; simp [List.orderedInsert]
  | y :: l => by
    subst hx
    by_cases h : y.1 ≤ x.1
    · simp [List.orderedInsert, h]
    · have hy : ¬ y.1 = x.1 := by omega
      rw [List.orderedInsert, if_neg h, List.filter_cons, List.filter_cons,
        orderedInsert_filter_eq x x.1 rfl l]
      simp [hy]

theorem orderedInsert_filter_ne (x : Nat × String) (s : Nat) (hx : ¬ x.1 = s) :
    ∀ l : List (Nat × String),
      (l.orderedInsert (fun a b => b.1 ≤ a.1) x).filter (fun p => decide (p.1 = s)) =
        l.filter (fun p => decide (p.1 = s))
  | [] => by simp [List.orderedInsert, hx]
  | y :: l => by
    by_cases h : y.1 ≤ x.1
    · simp [List.orderedInsert, h, hx]
    · rw [List.orderedInsert, if_neg h, List.filter_cons, List.filter_cons,
        orderedInsert_filter_ne x s hx l]

/-- Stability of the sort of `pick_top_k`: within one score class the sorted
list is exactly the input list. -/
theorem sortScored_filter (s : Nat) : ∀ l : List (Nat × String),
    (sortScored l).filter (fun p => decide (p.1 = s)) =
      l.filter (fun p => decide (p.1 = s))
  | [] => rfl
  | x :: l => by
    show ((sortScored l).orderedInsert (fun a b => b.1 ≤ a.1) x).filter _ = _
    by_cases hx : x.1 = s
    · rw [orderedInsert_filter_eq x s hx, sortScored_filter s l]
      simp [hx]
    · rw [orderedInsert_filter_ne x s hx, sortScored_filter s l]
      simp [hx]

theorem filter_take_isPre (P : α → Bool) : ∀ (l : List α) (n : Nat),
    ∃ rest, (l.take n).filter P ++ rest = l.filter P
  | l, 0 => ⟨l.filter P, by simp⟩
  | [], _ + 1 => ⟨[], by simp⟩
  | x :: l, n + 1 => by
    obtain ⟨r, hr⟩ := filter_take_isPre P l n
    refine ⟨r, ?_⟩
    cases hP : P x <;> simp [hP, hr]

theorem mem_scored_eq (q : String) (c : List String) (p : Nat × String)
    (hp : p ∈ scoredList q c) : p.1 = overlapScore q p.2 := by
  simp only [scoredList, List.mem_map] at hp
  obtain ⟨t, _, rfl⟩ := hp
  rfl

theorem filter_map_snd_of_inv (q : String) (s : Nat) :
    ∀ m : List (Nat × String), (∀ p ∈ m, p.1 = overlapScore q p.2) →
      (m.map Prod.snd).filter (fun t => decide (overlapScore q t = s)) =
        (m.filter (fun p => decide (p.1 = s))).map Prod.snd
  | [], _ => rfl
  | p :: m, h => by
    have hp := h p (by simp)
    have hm := filter_map_snd_of_inv q s m (fun x hx => h x (by simp [hx]))
    rw [List.map_cons, List.filter_cons, List.filter_cons, ← hp]
    by_cases hps : p.1 = s
    · simp [hps, hm]
    · simp [hps, hm]

/-- Claim C3: `pick_top_k` is a stable top-k selection: within every score
class `s`, the candidates selected are an initial run, in input order, of
the candidates of `C` in that class; hence equal-scored candidates appear in
the output exactly in their relative input order. -/
theorem claim_C3_topk_stable (Q : String) (C : List String) (k : Int) (hk : 0 < k)
    (s : Nat) :
    ∃ rest,
      (pick_top_k Q C k).filter (fun t => decide (overlapScore Q t = s)) ++ rest =
        C.filter (fun t => decide (overlapScore Q t = s)) := by
  obtain ⟨n, hn⟩ := pySliceTake_eq_take k (sortScored (scoredList Q C))
  have hinv : ∀ p ∈ (sortScored (scoredList Q C)).take n, p.1 = overlapScore Q p.2 := by
    intro p hp
    refine mem_scored_eq Q C p ?_
    have h1 : p ∈ sortScored (scoredList Q C) := List.take_subset n _ hp
    exact (sortScored_perm (scoredList Q C)).subset h1
  have h1 : (pick_top_k Q C k).filter (fun t => decide (overlapScore Q t = s)) =
      (((sortScored (scoredList Q C)).take n).filter
        (fun p => decide (p.1 = s))).map Prod.snd := by
    rw [pick_top_k, hn]
    exact filter_map_snd_of_inv Q s _ hinv
  obtain ⟨r, hr⟩ := filter_take_isPre (fun p => decide (p.1 = s))
    (sortScored (scoredList Q C)) n
  refine ⟨r.map Prod.snd, ?_⟩
  rw [h1, ← List.map_append, hr, sortScored_filter s]
  have h2 := filter_map_snd_of_inv Q s (scoredList Q C) (mem_scored_eq Q C)
  rw [← h2, scoredList_map_snd]

theorem claim_C3_topk_stable_witness :
    ∃ rest,
      (pick_top_k "alpha beta" ["one doc", "two doc", "three doc"] 2).filter
          (fun t => decide (overlapScore "alpha beta" t = 0)) ++ rest =
        (["one doc", "two doc", "three doc"] : List String).filter
          (fun t => decide (overlapScore "alpha beta" t = 0)) :=
  claim_C3_topk_stable "alpha beta" ["one doc", "two doc", "three doc"] 2 (by decide) 0

theorem getLast?_mem_of_eq {l : List Char} {a : Char} (h : l.getLast? = some a) : a ∈ l := by
  obtain ⟨hne, rfl⟩ := List.mem_getLast?_eq_getLast (by rw [h]; exact rfl)
  exact List.getLast_mem hne

theorem tokenRuns_nil : tokenRuns [] = [] := rfl

theorem head?_dropWhile_not (p : Char → Bool) :
    ∀ (l : List Char) (x : Char), (l.dropWhile p).head? = some x → p x = false
  | [], x => by simp
  | c :: l, x => by
    by_cases h : p c
    · rw [List.dropWhile_cons_of_pos h]
      exact head?_dropWhile_not p l x
    · rw [List.dropWhile_cons_of_neg h]
      intro hx
      simp only [List.head?_cons, Option.some.injEq] at hx
      subst hx
      exact Bool.eq_false_iff.mpr h

theorem takeWhile_all_append (p : Char → Bool) (b : List Char)
    (hb : ∀ x, b.head? = some x → p x = false) :
    ∀ w : List Char, (∀ c ∈ w, p c = true) →
      (w ++ b).takeWhile p = w ∧ (w ++ b).dropWhile p = b
  | [] => by
    intro _
    constructor
    · cases b with
      | nil => rfl
      | cons x b' =>
        have := hb x rfl
        simp [List.takeWhile_cons, this]
    · cases b with
      | nil => rfl
      | cons x b' =>
        have := hb x rfl
        simp [List.dropWhile_cons, this]
  | c :: w => by
    intro hall
    have hc : p c = true := hall c (by simp)
    obtain ⟨h1, h2⟩ := takeWhile_all_append p b hb w (fun x hx => hall x (by simp [hx]))
    constructor
    · rw [List.cons_append, List.takeWhile_cons_of_pos hc, h1]
    · rw [List.cons_append, List.dropWhile_cons_of_pos hc, h2]

theorem dropWhile_append_of_neg (p : Char → Bool) (t : List Char) :
    ∀ a : List Char, (∃ x ∈ a, p x = false) →
      (a ++ t).dropWhile p = a.dropWhile p ++ t
  | [], h => by simp at h
  | c :: a, h => by
    by_cases hc : p c
    · rw [List.cons_append, List.dropWhile_cons_of_pos hc, List.dropWhile_cons_of_pos hc]
      refine dropWhile_append_of_neg p t a ?_
      obtain ⟨x, hx, hpx⟩ := h
      rcases List.mem_cons.mp hx with rfl | hx'
      · rw [hc] at hpx; exact absurd hpx (by simp)
      · exact ⟨x, hx', hpx⟩
    · rw [List.cons_append, List.dropWhile_cons_of_neg hc, List.dropWhile_cons_of_neg hc,
        List.cons_append]

theorem dropWhile_ne_nil_of_mem (p : Char → Bool) (a : List Char)
    (h : ∃ x ∈ a, p x = false) : a.dropWhile p ≠ [] := by
  intro hnil
  obtain ⟨x, hx, hpx⟩ := h
  have := (List.dropWhile_eq_nil_iff.mp hnil) x hx
  rw [this] at hpx
  exact absurd hpx (by simp)

theorem getLast?_dropWhile (p : Char → Bool) (a : List Char)
    (h : a.dropWhile p ≠ []) : (a.dropWhile p).getLast? = a.getLast? := by
  obtain ⟨t, ht⟩ := List.dropWhile_suffix (l := a) p
  conv_rhs => rw [← ht]
  rw [List.getLast?_append_of_ne_nil t h]

/-- Every run extracted by `tokenRuns` is a maximal word-character run of
the input: non-empty, all word characters, with non-word neighbours. -/
theorem tokenRuns_shape : ∀ (n : Nat) (l : List Char), l.length ≤ n → ∀ r ∈ tokenRuns l,
    r ≠ [] ∧ (∀ c ∈ r, wordChar c = true) ∧
    ∃ a b, l = a ++ r ++ b ∧ (∀ c, a.getLast? = some c → wordChar c = false) ∧
      (∀ c, b.head? = some c → wordChar c = false) := by
  intro n
  induction n with
  | zero =>
    intro l hl r hr
    have hnil : l = [] := List.length_eq_zero.mp (Nat.le_zero.mp hl)
    subst hnil
    simp [tokenRuns_nil] at hr
  | succ m ih =>
    intro l hl r hr
    cases l with
    | nil => simp [tokenRuns_nil] at hr
    | cons c cs =>
      rw [tokenRuns_cons] at hr
      by_cases hw : wordChar c
      · rw [if_pos hw] at hr
        rcases List.mem_cons.mp hr with rfl | hr'
        · refine ⟨by simp, ?_, [], cs.dropWhile wordChar, ?_, by simp, ?_⟩
          · intro x hx
            rcases List.mem_cons.mp hx with rfl | hx'
            · exact hw
            · exact List.mem_takeWhile_imp hx'
          · simp [List.takeWhile_append_dropWhile]
          · intro x hx
            exact head?_dropWhile_not wordChar cs x hx
        · have hlen : (cs.dropWhile wordChar).length ≤ m :=
            le_trans (List.dropWhile_suffix _).length_le (by simpa using Nat.le_of_succ_le_succ hl)
          obtain ⟨hne, hall, a', b', hdec, hla, hhb⟩ := ih _ hlen r hr'
          have ha' : a' ≠ [] := by
            rintro rfl
            rw [List.nil_append] at hdec
            rcases r with _ | ⟨z, r₀⟩
            · exact hne rfl
            · have h1 : (cs.dropWhile wordChar).head? = some z := by rw [hdec]; rfl
              have h2 := head?_dropWhile_not wordChar cs z h1
              have h3 := hall z (by simp)
              rw [h3] at h2
              exact absurd h2 (by simp)
          refine ⟨hne, hall, (c :: cs.takeWhile wordChar) ++ a', b', ?_, ?_, hhb⟩
          · have h4 : (c :: cs.takeWhile wordChar) ++ (a' ++ r ++ b') = c :: cs := by
              rw [← hdec]
              simp [List.takeWhile_append_dropWhile]
            rw [← h4]
            simp [List.append_assoc]
          · intro x hx
            rw [List.getLast?_append_of_ne_nil _ ha'] at hx
            exact hla x hx
      · rw [if_neg hw] at hr
        obtain ⟨hne, hall, a', b', hdec, hla, hhb⟩ :=
          ih cs (by simpa using Nat.le_of_succ_le_succ hl) r hr
        refine ⟨hne, hall, c :: a', b', by rw [List.cons_append, hdec]; rfl, ?_, hhb⟩
        intro x hx
        cases a' with
        | nil =>
          simp only [List.getLast?_singleton, Option.some.injEq] at hx
          subst hx
          exact Bool.eq_false_iff.mpr hw
        | cons y a'' =>
          rw [List.getLast?_cons_cons] at hx
          exact hla x hx

/-- Conversely, every maximal word-character run of the input is extracted
by `tokenRuns`. -/
theorem shape_tokenRuns : ∀ (n : Nat) (a w b l : List Char), l.length ≤ n →
    l = a ++ w ++ b → w ≠ [] → (∀ c ∈ w, wordChar c = true) →
    (∀ c, a.getLast? = some c → wordChar c = false) →
    (∀ c, b.head? = some c → wordChar c = false) →
    w ∈ tokenRuns l := by
  intro n
  induction n with
  | zero =>
    intro a w b l hl hdec hne _ _ _
    subst hdec
    have h0 := Nat.le_zero.mp hl
    rw [List.length_append, List.length_append] at h0
    have : w = [] := List.length_eq_zero.mp (by omega)
    exact absurd this hne
  | succ m ih =>
    intro a w b l hl hdec hne hall hla hhb
    subst hdec
    cases a with
    | nil =>
      rcases w with _ | ⟨c, w'⟩
      · exact absurd rfl hne
      have hw : wordChar c = true := hall c (by simp)
      rw [List.nil_append, List.cons_append, tokenRuns_cons, if_pos hw]
      obtain ⟨h1, _⟩ := takeWhile_all_append wordChar b hhb w'
        (fun x hx => hall x (by simp [hx]))
      rw [h1]
      exact List.mem_cons_self _ _
    | cons c a' =>
      by_cases hw : wordChar c
      · have ha' : a' ≠ [] := by
          rintro rfl
          have h1 := hla c (by simp)
          rw [hw] at h1
          exact absurd h1 (by simp)
        have hz : a'.getLast? = some (a'.getLast ha') :=
          List.getLast?_eq_getLast_of_ne_nil ha'
        have hzw : wordChar (a'.getLast ha') = false := by
          refine hla _ ?_
          rw [show (c :: a') = [c] ++ a' from rfl, List.getLast?_append_of_ne_nil _ ha']
          exact hz
        have hmem : ∃ x ∈ a', wordChar x = false := ⟨_, getLast?_mem_of_eq hz, hzw⟩
        rw [List.cons_append, List.cons_append, tokenRuns_cons, if_pos hw]
        refine List.mem_cons_of_mem _ ?_
        rw [List.append_assoc, dropWhile_append_of_neg wordChar (w ++ b) a' hmem]
        have hd_ne := dropWhile_ne_nil_of_mem wordChar a' hmem
        refine ih (a'.dropWhile wordChar) w b _ ?_ (by rw [List.append_assoc]) hne hall ?_ hhb
        · have h1 := (List.dropWhile_suffix wordChar (l := a')).length_le
          simp only [List.cons_append, List.length_cons, List.length_append] at hl ⊢
          omega
        · intro x hx
          rw [getLast?_dropWhile wordChar a' hd_ne] at hx
          refine hla x ?_
          rw [show (c :: a') = [c] ++ a' from rfl, List.getLast?_append_of_ne_nil _ ha']
          exact hx
      · rw [List.cons_append, List.cons_append, tokenRuns_cons, if_neg hw]
        refine ih a' w b _ ?_ rfl hne hall ?_ hhb
        · simp only [List.cons_append, List.length_cons, List.length_append] at hl ⊢
          omega
        · intro x hx
          cases a' with
          | nil => simp at hx
          | cons y a'' =>
            refine hla x ?_
            rw [List.getLast?_cons_cons]
            exact hx

/-- The token list of a text consists exactly of the maximal word-character
runs of length at least 3 of its lowercased form. -/
theorem tokens_iff (t w : String) :
    w ∈ tokens t ↔ (IsMaxWordRun t w ∧ 3 ≤ w.data.length) := by
  constructor
  · intro hw
    simp only [tokens, List.mem_map, List.mem_filter, decide_eq_true_eq] at hw
    obtain ⟨r, ⟨hr, hlen⟩, rfl⟩ := hw
    obtain ⟨hne, hall, a, b, hdec, hla, hhb⟩ :=
      tokenRuns_shape (pyLower t).data.length (pyLower t).data (le_refl _) r hr
    exact ⟨⟨hne, hall, a, b, hdec, hla, hhb⟩, hlen⟩
  · rintro ⟨⟨hne, hall, a, b, hdec, hla, hhb⟩, hlen⟩
    have hmem : w.data ∈ tokenRuns (pyLower t).data :=
      shape_tokenRuns (pyLower t).data.length a w.data b (pyLower t).data (le_refl _)
        hdec hne hall hla hhb
    simp only [tokens, List.mem_map, List.mem_filter, decide_eq_true_eq]
    exact ⟨w.data, ⟨hmem, hlen⟩, rfl⟩

theorem pairwise_map_snd_desc (q : String) :
    ∀ m : List (Nat × String), (∀ p ∈ m, p.1 = overlapScore q p.2) →
      List.Pairwise (fun a b => b.1 ≤ a.1) m →
      List.Pairwise (fun t u : String => overlapScore q u ≤ overlapScore q t)
        (m.map Prod.snd)
  | [], _, _ => by simp
  | p :: m, hinv, hpw => by
    rw [List.map_cons]
    rcases List.pairwise_cons.mp hpw with ⟨hhead, htail⟩
    refine List.pairwise_cons.mpr
      ⟨?_, pairwise_map_snd_desc q m (fun x hx => hinv x (by simp [hx])) htail⟩
    intro u hu
    obtain ⟨x, hx, rfl⟩ := List.mem_map.mp hu
    have h1 := hinv p (by simp)
    have h2 := hinv x (by simp [hx])
    rw [← h1, ← h2]
    exact hhead x hx

/-- Claim C4: `pick_top_k` orders its output by descending lexical-overlap
score, the score of a candidate `t` is the cardinality of
`tokens(t) ∩ tokens(Q)`, and the tokens of a text are exactly the maximal
word-character runs of length at least 3 of the lowercased text. -/
theorem claim_C4_topk_scoring (Q : String) (C : List String) (k : Int) :
    List.Pairwise (fun t u => overlapScore Q u ≤ overlapScore Q t) (pick_top_k Q C k) ∧
    (∀ t : String, overlapScore Q t = (tokenSet t ∩ tokenSet Q).card) ∧
    (∀ t w : String, w ∈ tokens t ↔ (IsMaxWordRun t w ∧ 3 ≤ w.data.length)) := by
  refine ⟨?_, ?_, fun t w => tokens_iff t w⟩
  · obtain ⟨n, hn⟩ := pySliceTake_eq_take k (sortScored (scoredList Q C))
    rw [pick_top_k, hn]
    refine pairwise_map_snd_desc Q _ ?_ ?_
    · intro p hp
      refine mem_scored_eq Q C p ?_
      exact (sortScored_perm (scoredList Q C)).subset (List.take_subset n _ hp)
    · exact ((sortScored_sorted (scoredList Q C)).sublist (List.take_sublist n _))
  · intro t
    rw [overlapScore, Finset.inter_comm]

theorem pyStrip_length_le (l : List Char) : (pyStrip l).length ≤ l.length := by
  unfold pyStrip
  rw [List.length_reverse]
  calc ((l.dropWhile pySpace).reverse.dropWhile pySpace).length
      ≤ (l.dropWhile pySpace).reverse.length := (List.dropWhile_suffix _).length_le
    _ = (l.dropWhile pySpace).length := List.length_reverse _
    _ ≤ l.length := (List.dropWhile_suffix _).length_le

/-- Every buffer `packGo` emits either fits the bound or is one of the
units `U` it was given (the invariant behind claim C1). -/
theorem packGo_mem (M : Int) (U : List (List Char)) :
    ∀ (parts : List (List Char)) (buf : List Char),
      (buf = [] ∨ (buf.length : Int) ≤ M ∨ buf ∈ U) →
      (∀ p ∈ parts, p ∈ U) →
      ∀ s ∈ packGo M buf parts, (s.length : Int) ≤ M ∨ s ∈ U := by
  intro parts
  induction parts with
  | nil =>
    intro buf hbuf _ s hs
    rw [packGo] at hs
    by_cases h2 : buf = []
    · rw [if_pos h2] at hs
      simp at hs
    · rw [if_neg h2] at hs
      rw [List.mem_singleton] at hs
      subst hs
      rcases hbuf with h | h | h
      · exact absurd h h2
      · exact Or.inl h
      · exact Or.inr h
  | cons part parts ih =>
    intro buf hbuf hps s hs
    rw [packGo] at hs
    by_cases h1 : (buf.length : Int) + part.length + 2 ≤ M
    · rw [if_pos h1] at hs
      refine ih (joinBuf buf part) ?_ (fun p hp => hps p (by simp [hp])) s hs
      right; left
      unfold joinBuf
      by_cases h2 : buf = []
      · rw [if_pos h2]
        subst h2
        simp only [List.length_nil, Nat.cast_zero, Int.zero_add] at h1 ⊢
        omega
      · rw [if_neg h2]
        simp only [List.length_append, List.length_cons]
        push_cast
        push_cast at h1
        omega
    · rw [if_neg h1] at hs
      by_cases h2 : buf = []
      · rw [if_pos h2] at hs
        exact ih part
          (Or.inr (Or.inr (hps part (by simp)))) (fun p hp => hps p (by simp [hp])) s hs
      · rw [if_neg h2] at hs
        rcases List.mem_cons.mp hs with rfl | hs'
        · rcases hbuf with h | h | h
          · exact absurd h h2
          · exact Or.inl h
          · exact Or.inr h
        · exact ih part
            (Or.inr (Or.inr (hps part (by simp)))) (fun p hp => hps p (by simp [hp])) s hs'

/-- A buffer already beyond the bound is flushed untouched by the rest of
the loop. -/
theorem packGo_big_buf (M : Int) (hM : 0 < M) :
    ∀ (parts : List (List Char)) (buf : List Char),
      M < (buf.length : Int) → buf ∈ packGo M buf parts
  | [], buf, h => by
    have hne : buf ≠ [] := by
      intro hnil; subst hnil; simp at h; omega
    rw [packGo, if_neg hne]
    simp
  | part :: parts, buf, h => by
    have hne : buf ≠ [] := by
      intro hnil; subst hnil; simp at h; omega
    have h1 : ¬ ((buf.length : Int) + part.length + 2 ≤ M) := by
      have : (0 : Int) ≤ (part.length : Int) := Int.natCast_nonneg _
      omega
    rw [packGo, if_neg h1, if_neg hne]
    exact List.mem_cons_self _ _

/-- An oversized unit is emitted whole as its own buffer, whatever the
current buffer is. -/
theorem packGo_oversized (M : Int) (hM : 0 < M) :
    ∀ (parts : List (List Char)) (buf u : List Char),
      u ∈ parts → M < (u.length : Int) → u ∈ packGo M buf parts
  | [], _, u, hu, _ => by simp at hu
  | part :: parts, buf, u, hu, hlen => by
    rcases List.mem_cons.mp hu with rfl | hu'
    · have h1 : ¬ ((buf.length : Int) + u.length + 2 ≤ M) := by
        have : (0 : Int) ≤ (buf.length : Int) := Int.natCast_nonneg _
        omega
      rw [packGo, if_neg h1]
      by_cases h2 : buf = []
      · rw [if_pos h2]
        exact packGo_big_buf M hM parts u hlen
      · rw [if_neg h2]
        exact List.mem_cons_of_mem _ (packGo_big_buf M hM parts u hlen)
    · rw [packGo]
      by_cases h1 : (buf.length : Int) + part.length + 2 ≤ M
      · rw [if_pos h1]
        exact packGo_oversized M hM parts (joinBuf buf part) u hu' hlen
      · rw [if_neg h1]
        by_cases h2 : buf = []
        · rw [if_pos h2]
          exact packGo_oversized M hM parts part u hu' hlen
        · rw [if_neg h2]
          exact List.mem_cons_of_mem _ (packGo_oversized M hM parts part u hu' hlen)

/-- Intended semantics of the chunker (the branch the real function never
reaches): for `M > 0` every segment of `basic_chunk T M` has length at most
`M`, except the (stripped) image of a single unit of the split whose own
length exceeds `M`; and every such oversized unit is emitted whole
(stripped, as every segment is) as its own segment, never truncated or
re-split. -/
theorem chunk_bound_intended (T : String) (M : Int) (hM : 0 < M) :
    (∀ s ∈ basic_chunk T M, (s.data.length : Int) ≤ M ∨
      ∃ u ∈ pySplitUnits T, s = pyStripStr u ∧ M < (u.data.length : Int)) ∧
    (∀ u ∈ pySplitUnits T, M < (u.data.length : Int) → pyStripStr u ≠ "" →
      pyStripStr u ∈ basic_chunk T M) := by
  constructor
  · intro s hs
    simp only [basic_chunk, chunkL, List.mem_map, List.mem_filter,
      decide_eq_true_eq] at hs
    obtain ⟨c, ⟨hc, hcne⟩, rfl⟩ := hs
    obtain ⟨b, hb, rfl⟩ := hc
    have hmem := packGo_mem M (splitUnits T.data) (splitUnits T.data) []
      (Or.inl rfl) (fun p hp => hp) b hb
    by_cases hlen : ((pyStrip b).length : Int) ≤ M
    · exact Or.inl (by simpa using hlen)
    · rcases hmem with h | h
      · exact absurd (le_trans (by exact_mod_cast pyStrip_length_le b) h) hlen
      · refine Or.inr ⟨String.mk b, List.mem_map_of_mem _ h, rfl, ?_⟩
        have h1 : ((pyStrip b).length : Int) ≤ (b.length : Int) := by
          exact_mod_cast pyStrip_length_le b
        have hlen2 : ¬ (((pyStrip b).length : Int) ≤ M) := hlen
        show M < (b.length : Int)
        omega
  · intro u hu hbig hne
    obtain ⟨b, hb, rfl⟩ := List.mem_map.mp hu
    have hover := packGo_oversized M hM (splitUnits T.data) [] b hb (by simpa using hbig)
    simp only [basic_chunk, chunkL]
    refine List.mem_map_of_mem _ ?_
    refine List.mem_filter.mpr ⟨List.mem_map_of_mem _ hover, ?_⟩
    simp only [decide_eq_true_eq]
    intro hnil
    apply hne
    show String.mk (pyStrip b) = ""
    rw [hnil]

theorem chunk_bound_intended_check :
    0 < (4 : Int) ∧
    ((∀ s ∈ basic_chunk "aaaaaaa\n\nbb" 4, (s.data.length : Int) ≤ 4 ∨
        ∃ u ∈ pySplitUnits "aaaaaaa\n\nbb", s = pyStripStr u ∧ 4 < (u.data.length : Int)) ∧
      (∀ u ∈ pySplitUnits "aaaaaaa\n\nbb", 4 < (u.data.length : Int) → pyStripStr u ≠ "" →
        pyStripStr u ∈ basic_chunk "aaaaaaa\n\nbb" 4)) :=
  ⟨by decide, chunk_bound_intended "aaaaaaa\n\nbb" 4 (by decide)⟩

/-- Claim C1, code bug: on every Python able to import the module (3.12 and
later, forced by the handler's f-string), `re.split` raises `re.error` for
the mid-pattern `(?m)` global flag when it compiles the pattern, on every
call and before any splitting — so `basic_chunk` never returns a segment
list and the claimed length bound holds of no actual run. The compile check
fires on the literal pattern, and the error is the whole result. -/
theorem claim_C1_chunk_always_errors :
    midGlobalFlags chunkPattern = true ∧
    ∀ (T : String) (M : Int), basic_chunk_run T M = Except.error PyErr.reError :=
  ⟨rfl, fun _ _ => rfl⟩

set_option maxRecDepth 20000 in
/-- Claim C7: with an empty selected-segment list the assembled prompt is
`pre ++ beginMarker ++ F ++ endMarker ++ post`: the fact summary `F` stands
verbatim and unmodified between the begin/end marker lines (each marker
sits on its own line of the f-string, so the marker text here carries the
adjacent newline-plus-indent), and the part before the markers carries the
existing-documentation header with the literal placeholder
`(no extra docs provided)`. -/
theorem claim_C7_prompt_empty (F : String) :
    ∃ pre post,
      buildPrompt F [] =
        pre ++ ("---BEGIN SEMANTIC SUMMARY---\n        " ++ F ++
          "\n        ---END SEMANTIC SUMMARY---") ++ post ∧
      strOccurs "(no extra docs provided)" pre = true ∧
      strOccurs "Existing documentation snippets" pre = true := by
  refine ⟨promptHead ++ "(no extra docs provided)" ++
    "\n\n        Extracted semantic summary (from code analysis):\n        ",
    "\n\n        Tasks:\n        1) Write a cohesive overview: problem solved, core capabilities, key modules, and business value.\n        2) Resolve conflicts in favor of the existing snippets (if any).\n        3) List unclear areas under \"Open Questions\".\n        4) Keep it concise and executive-friendly (~800\u20131200 words).\n        ",
    ?_, ?_, ?_⟩
  · have hmid : promptMid =
        "\n\n        Extracted semantic summary (from code analysis):\n        " ++
          "---BEGIN SEMANTIC SUMMARY---\n        " := by decide
    have htail : promptTail =
        "\n        ---END SEMANTIC SUMMARY---" ++
          "\n\n        Tasks:\n        1) Write a cohesive overview: problem solved, core capabilities, key modules, and business value.\n        2) Resolve conflicts in favor of the existing snippets (if any).\n        3) List unclear areas under \"Open Questions\".\n        4) Keep it concise and executive-friendly (~800\u20131200 words).\n        " := by
      decide
    rw [buildPrompt, if_pos rfl, hmid, htail]
    simp only [String.append_assoc]
  · decide
  · decide

theorem mapM_pyStrElem : ∀ cs : List String,
    (cs.map Json.str).mapM pyStrElem = Except.ok cs
  | [] => rfl
  | c :: cs => by
    rw [List.map_cons, List.mapM_cons, pyStrElem, mapM_pyStrElem cs]
    rfl

theorem pyJoin_strings (sep : String) (cs : List String) :
    pyJoin sep (Json.arr (cs.map Json.str)) = Except.ok (String.intercalate sep cs) := by
  rw [pyJoin]
  rw [show ((cs.map Json.str).mapM pyStrElem >>= fun ss =>
      Except.ok (String.intercalate sep ss)) =
    (Except.ok cs >>= fun ss => Except.ok (String.intercalate sep ss)) from by
      rw [mapM_pyStrElem cs]]
  rfl

theorem pyTruthy_arr_str (cs : List String) :
    pyTruthy (Json.arr (cs.map Json.str)) = decide (¬ cs = []) := by
  cases cs <;> simp [pyTruthy]

theorem pyTruthy_arr_nil : pyTruthy (Json.arr []) = false := rfl

theorem pyGet_record (p f : Option String) (cs ms co : List String) :
    pyGet (FactRecord.toJson ⟨p, f, cs, ms, co⟩) "Project" (Json.str "") =
        Except.ok (Json.str (p.getD "")) ∧
      pyGet (FactRecord.toJson ⟨p, f, cs, ms, co⟩) "File" (Json.str "") =
        Except.ok (Json.str (f.getD "")) ∧
      pyGet (FactRecord.toJson ⟨p, f, cs, ms, co⟩) "Classes" Json.null =
        Except.ok (Json.arr (cs.map Json.str)) ∧
      pyGet (FactRecord.toJson ⟨p, f, cs, ms, co⟩) "Methods" Json.null =
        Except.ok (Json.arr (ms.map Json.str)) ∧
      pyGet (FactRecord.toJson ⟨p, f, cs, ms, co⟩) "Comments" Json.null =
        Except.ok (Json.arr (co.map Json.str)) := by
  cases p <;> cases f <;> simp [FactRecord.toJson, pyGet, dictGet]

theorem exceptOkBind {ε α β : Type} (x : α) (g : α → Except ε β) :
    (Except.ok x >>= g) = g x := rfl

theorem exceptOkMap {ε α β : Type} (x : α) (g : α → β) :
    (g <$> (Except.ok x : Except ε α)) = Except.ok (g x) := rfl

theorem exceptPure {ε α : Type} (x : α) : (pure x : Except ε α) = Except.ok x := rfl

/-- One well-formed record renders to exactly its `recordLines`. -/
theorem flattenItem_record (r : FactRecord) :
    flattenItem r.toJson = Except.ok (recordLines r) := by
  obtain ⟨p, f, cs, ms, co⟩ := r
  obtain ⟨h1, h2, h3, h4, h5⟩ := pyGet_record p f cs ms co
  rw [flattenItem, h1, h2, h3, h4, h5]
  by_cases hcs : cs = [] <;> by_cases hms : ms = [] <;> by_cases hco : co = [] <;>
    simp [exceptOkBind, exceptOkMap, exceptPure, hcs, hms, hco, pyTruthy_arr_str,
      pyTruthy_arr_nil, pyJoin_strings, recordLines, pyRenderVal]

theorem flattenLoop_records : ∀ rs : List FactRecord,
    flattenLoop (rs.map FactRecord.toJson) =
      Except.ok ((rs.map recordLines).flatten)
  | [] => rfl
  | r :: rs => by
    rw [List.map_cons, flattenLoop, flattenItem_record r, flattenLoop_records rs]
    rfl

/-- Claim C8: a well-formed fact list renders as, per record, the
`Project:`/`File:` lines (missing fields as empty strings), the indented
`Classes:`/`Methods:`/`Comments:` lines only when the corresponding list is
non-empty, and a blank separator line, all joined by newlines; on the
concrete single record `{Project:"P", File:"F.cs", Classes:["A","B"],
Methods:[], Comments:[]}` the output contains the literal lines
`Project: P`, `File: F.cs`, `  Classes: A, B` and no `Methods:` or
`Comments:` line. -/
theorem claim_C8_flatten_render :
    (∀ rs : List FactRecord,
      flatten_semantic_json (Json.arr (rs.map FactRecord.toJson)) =
        Except.ok (String.intercalate "\n" ((rs.map recordLines).flatten))) ∧
    flatten_semantic_json (Json.arr
        [Json.obj [("Project", Json.str "P"), ("File", Json.str "F.cs"),
          ("Classes", Json.arr [Json.str "A", Json.str "B"]),
          ("Methods", Json.arr []), ("Comments", Json.arr [])]]) =
      Except.ok "Project: P\nFile: F.cs\n  Classes: A, B\n" ∧
    strOccurs "Project: P" "Project: P\nFile: F.cs\n  Classes: A, B\n" = true ∧
    strOccurs "File: F.cs" "Project: P\nFile: F.cs\n  Classes: A, B\n" = true ∧
    strOccurs "  Classes: A, B" "Project: P\nFile: F.cs\n  Classes: A, B\n" = true ∧
    strOccurs "Methods:" "Project: P\nFile: F.cs\n  Classes: A, B\n" = false ∧
    strOccurs "Comments:" "Project: P\nFile: F.cs\n  Classes: A, B\n" = false := by
  refine ⟨?_, by rfl, by decide, by decide, by decide, by decide, by decide⟩
  intro rs
  have h0 : iterItems (Json.arr (rs.map FactRecord.toJson)) =
      Except.ok (rs.map FactRecord.toJson) := rfl
  rw [flatten_semantic_json, h0, exceptOkBind, flattenLoop_records rs, exceptOkBind,
    exceptPure]

/-- Counterexample to claim C5: the empty JSON object is not a sequence of
fact-shaped records, yet `flatten_semantic_json` silently returns the empty
string instead of failing (iterating an empty dict runs the loop zero
times). -/
theorem claim_C5_counterexample : flatten_semantic_json (Json.obj []) = Except.ok "" := rfl

theorem flattenLoop_err : ∀ xs : List Json, (∃ x ∈ xs, ∀ kvs, ¬ x = Json.obj kvs) →
    ∃ e, flattenLoop xs = Except.error e
  | [], h => by simp at h
  | x :: xs, h => by
    cases x with
    | obj kvs =>
      obtain ⟨y, hy, hna⟩ := h
      rcases List.mem_cons.mp hy with rfl | hy'
      · exact absurd rfl (hna kvs)
      · obtain ⟨e, he⟩ := flattenLoop_err xs ⟨y, hy', hna⟩
        rw [flattenLoop]
        cases hfi : flattenItem (Json.obj kvs) with
        | error e2 => exact ⟨e2, rfl⟩
        | ok ls => exact ⟨e, by rw [exceptOkBind, he]; rfl⟩
    | null => exact ⟨PyErr.attributeError, rfl⟩
    | bool b => exact ⟨PyErr.attributeError, rfl⟩
    | num n => exact ⟨PyErr.attributeError, rfl⟩
    | str s => exact ⟨PyErr.attributeError, rfl⟩
    | arr ys => exact ⟨PyErr.attributeError, rfl⟩

/-- Claim C5, amended: `flatten_semantic_json` does fail, with an exception
that propagates and leaves no partial output, on a non-iterable document
(`TypeError`), on a non-empty object or non-empty string document, and on
an array containing a non-object element (`AttributeError` at the first
non-record item, or whatever error an earlier record raises) — but the
error is a plain Python exception, not a structured `MalformedFactDocument`
condition, and an empty object or empty string silently yields the empty
result (see the counterexample). -/
theorem claim_C5_flatten_errors :
    (∀ n : Int, flatten_semantic_json (Json.num n) = Except.error PyErr.typeError) ∧
    (∀ b : Bool, flatten_semantic_json (Json.bool b) = Except.error PyErr.typeError) ∧
    flatten_semantic_json Json.null = Except.error PyErr.typeError ∧
    (∀ (k : String) (v : Json) (kvs : List (String × Json)),
      flatten_semantic_json (Json.obj ((k, v) :: kvs)) =
        Except.error PyErr.attributeError) ∧
    (∀ (c : Char) (rest : List Char),
      flatten_semantic_json (Json.str (String.mk (c :: rest))) =
        Except.error PyErr.attributeError) ∧
    (∀ xs : List Json, (∃ x ∈ xs, ∀ kvs, ¬ x = Json.obj kvs) →
      ∃ e, flatten_semantic_json (Json.arr xs) = Except.error e) := by
  refine ⟨fun n => rfl, fun b => rfl, rfl, fun k v kvs => rfl, fun c rest => rfl, ?_⟩
  intro xs h
  obtain ⟨e, he⟩ := flattenLoop_err xs h
  refine ⟨e, ?_⟩
  rw [flatten_semantic_json, show iterItems (Json.arr xs) = Except.ok xs from rfl,
    exceptOkBind, he]
  rfl

theorem claim_C5_flatten_errors_witness :
    ∃ e, flatten_semantic_json (Json.arr [Json.num 3]) = Except.error e :=
  claim_C5_flatten_errors.2.2.2.2.2 [Json.num 3]
    ⟨Json.num 3, List.mem_singleton.mpr rfl, fun _ h => Json.noConfusion h⟩

/-- Counterexample to claim C6: no `InvalidConfiguration` failure exists.
`pick_top_k` with `k = 0` silently returns the empty candidate list instead
of failing fast; and `basic_chunk` with `max_chars = 0` does fail — but with
the pattern-compile `re.error` that every call raises regardless of the
bound, not with any validation of its configuration. -/
theorem claim_C6_counterexample :
    pick_top_k "query" ["doc"] 0 = [] ∧
    basic_chunk_run "ab" 0 = Except.error PyErr.reError :=
  ⟨by decide, rfl⟩

theorem packGo_nonpos (M : Int) (hM : M ≤ 0) :
    ∀ (parts : List (List Char)) (buf : List Char),
      packGo M buf parts =
        (if buf = [] then [] else [buf]) ++
          parts.filter (fun p => decide (¬ p = []))
  | [], buf => by rw [packGo]; simp
  | part :: parts, buf => by
    have hcond : ¬ ((buf.length : Int) + part.length + 2 ≤ M) := by
      have h1 : (0 : Int) ≤ (buf.length : Int) := Int.natCast_nonneg _
      have h2 : (0 : Int) ≤ (part.length : Int) := Int.natCast_nonneg _
      omega
    rw [packGo, if_neg hcond]
    by_cases h2 : buf = []
    · rw [if_pos h2, packGo_nonpos M hM parts part]
      simp [List.filter_cons]
      split <;> simp_all
    · rw [if_neg h2, packGo_nonpos M hM parts part]
      simp [List.filter_cons]
      split <;> simp_all

theorem pyStrip_nil : pyStrip [] = [] := rfl

theorem strip_filter_comm : ∀ parts : List (List Char),
    ((parts.filter (fun p => decide (¬ p = []))).map pyStrip).filter
        (fun c => decide (¬ c = [])) =
      (parts.map pyStrip).filter (fun c => decide (¬ c = []))
  | [] => rfl
  | p :: parts => by
    by_cases hp : p = []
    · subst hp
      simp [pyStrip_nil]
      simpa using strip_filter_comm parts
    · by_cases hs : pyStrip p = [] <;> simp [hp, hs] <;>
        simpa using strip_filter_comm parts

/-- Intended semantics at a non-positive bound (the branch the real chunker
never reaches): with `max_chars ≤ 0` the packing condition never holds, so
the intended split-and-pack returns every stripped non-empty unit as its own
segment; and `pick_top_k` with `k = 0` returns the empty list. -/
theorem nonpos_bound_intended :
    (∀ (T : String) (M : Int), M ≤ 0 →
      basic_chunk T M =
        ((pySplitUnits T).map pyStripStr).filter (fun c => decide (¬ c = ""))) ∧
    (∀ (q : String) (c : List String), pick_top_k q c 0 = []) := by
  constructor
  · intro T M hM
    rw [basic_chunk, chunkL, packGo_nonpos M hM _ [], if_pos rfl, List.nil_append,
      strip_filter_comm]
    rw [pySplitUnits]
    induction splitUnits T.data with
    | nil => rfl
    | cons u units ih =>
      have hiff : (pyStripStr (String.mk u) = "") ↔ (pyStrip u = []) := by
        constructor
        · intro h
          exact congrArg String.data h
        · intro h
          show String.mk (pyStrip u) = ""
          rw [h]
      by_cases hs : pyStrip u = []
      · simp only [List.map_cons, List.filter_cons, hs, hiff.mpr hs]
        simp only [decide_not]
        simpa using ih
      · have hs2 : ¬ pyStripStr (String.mk u) = "" := fun h => hs (hiff.mp h)
        simp only [List.map_cons, List.filter_cons]
        rw [if_pos (by simp [hs]), if_pos (by simp [hs2])]
        rw [List.map_cons, ih]
        rfl
  · intro q c
    simp [pick_top_k, pySliceTake]

theorem nonpos_bound_intended_check :
    basic_chunk "ab" (-3) =
      ((pySplitUnits "ab").map pyStripStr).filter (fun c => decide (¬ c = "")) ∧
    pick_top_k "q" ["d"] 0 = [] :=
  ⟨nonpos_bound_intended.1 "ab" (-3) (by decide), nonpos_bound_intended.2 "q" ["d"]⟩

/-- Claim C6, amended: neither function validates its configuration, and no
`InvalidConfiguration` condition exists in the code. `pick_top_k` accepts
`k = 0` and silently returns the empty list (Python's `scored[:0]`);
`basic_chunk` never examines `max_chars` at all on a Python able to import
the module: every call, whatever the bound, fails first with the
pattern-compile `re.error`, so a non-positive bound in particular is met by
that unconditional error rather than by fail-fast validation. -/
theorem claim_C6_no_validation :
    (∀ (q : String) (c : List String), pick_top_k q c 0 = []) ∧
    (∀ (T : String) (M : Int), M ≤ 0 →
      basic_chunk_run T M = Except.error PyErr.reError) :=
  ⟨fun q c => by simp [pick_top_k, pySliceTake], fun _ _ _ => rfl⟩

theorem claim_C6_no_validation_witness :
    pick_top_k "q" ["d"] 0 = [] ∧
    ((-3 : Int) ≤ 0 ∧ basic_chunk_run "ab" (-3) = Except.error PyErr.reError) :=
  ⟨claim_C6_no_validation.1 "q" ["d"],
    by decide, claim_C6_no_validation.2 "ab" (-3) (by decide)⟩

/-- Under the INTENDED split semantics, re-chunking the joined output can
produce MORE segments. For `T = "a\n\n# #\n\nccc\n\nddd"` and `M = 8` the
chunker returns 2 segments; the first ends in a line-start `#`, so on
re-splitting the joined text the heading pattern `^#+\s` consumes one
separator newline and the units regroup into 3 segments. So even had the
pattern compiled, the claimed inequality would fail in general. -/
theorem rechunk_count_can_grow_intended :
    (basic_chunk "a\n\n# #\n\nccc\n\nddd" 8).length = 2 ∧
    (basic_chunk (String.intercalate "\n\n" (basic_chunk "a\n\n# #\n\nccc\n\nddd" 8))
      8).length = 3 := by
  have h1 : basic_chunk "a\n\n# #\n\nccc\n\nddd" 8 = ["a\n\n\n\n#", "ccc\n\nddd"] := by
    simp [basic_chunk, chunkL, splitUnits, splitter, packGo, joinBuf, pyStrip, pySpace]
  have h2 : String.intercalate "\n\n" ["a\n\n\n\n#", "ccc\n\nddd"] =
      "a\n\n\n\n#\n\nccc\n\nddd" := by decide
  have h3 : basic_chunk "a\n\n\n\n#\n\nccc\n\nddd" 8 = ["a", "ccc", "ddd"] := by
    simp [basic_chunk, chunkL, splitUnits, splitter, packGo, joinBuf, pyStrip, pySpace]
  refine ⟨by rw [h1]; rfl, by rw [h1, h2, h3]; rfl⟩

theorem packGo_step (M : Int) (buf u : List Char) (us : List (List Char)) :
    packGo M buf (u :: us) = packStepOut M buf u ++ packGo M (packStepBuf M buf u) us := by
  rw [packGo, packStepOut, packStepBuf]
  by_cases h1 : (buf.length : Int) + u.length + 2 ≤ M
  · rw [if_pos h1, if_pos h1, if_pos h1, List.nil_append]
  · rw [if_neg h1, if_neg h1, if_neg h1]
    by_cases h2 : buf = []
    · rw [if_pos h2, if_pos h2, List.nil_append]
    · rw [if_neg h2, if_neg h2, List.singleton_append]

theorem packGo_append (M : Int) :
    ∀ (us vs : List (List Char)) (buf : List Char),
      packGo M buf (us ++ vs) = emitted M buf us ++ packGo M (bufAfter M buf us) vs
  | [], vs, buf => by rw [emitted, bufAfter, List.nil_append, List.nil_append]
  | u :: us, vs, buf => by
    rw [List.cons_append, packGo_step, emitted, bufAfter,
      packGo_append M us vs (packStepBuf M buf u), List.append_assoc]

theorem packGo_length_decomp (M : Int) :
    ∀ (us : List (List Char)) (buf : List Char),
      (packGo M buf us).length ≤ (emitted M buf us).length + 1
  | [], buf => by
    rw [packGo, emitted]
    by_cases h : buf = [] <;> simp [h]
  | u :: us, buf => by
    rw [packGo_step, emitted, List.length_append, List.length_append]
    have := packGo_length_decomp M us (packStepBuf M buf u)
    omega

theorem packStepBuf_empty (M : Int) (u : List Char) : packStepBuf M [] u = u := by
  rw [packStepBuf, joinBuf]
  by_cases h : (([] : List Char).length : Int) + u.length + 2 ≤ M
  · rw [if_pos h, if_pos rfl]
  · rw [if_neg h]

theorem packStepOut_empty (M : Int) (u : List Char) : packStepOut M [] u = [] := by
  rw [packStepOut]
  by_cases h : (([] : List Char).length : Int) + u.length + 2 ≤ M
  · rw [if_pos h]
  · rw [if_neg h, if_pos rfl]

theorem joinUnits_cons (u : List Char) (us : List (List Char)) (h : us ≠ []) :
    joinUnits (u :: us) = u ++ '\n' :: '\n' :: joinUnits us := by
  cases us with
  | nil => exact absurd rfl h
  | cons v vs => rfl

theorem joinUnits_merge (b u : List Char) (us : List (List Char)) :
    joinUnits ((b ++ '\n' :: '\n' :: u) :: us) = b ++ '\n' :: '\n' :: joinUnits (u :: us) := by
  cases us with
  | nil => rfl
  | cons v vs =>
    rw [joinUnits_cons _ _ (by simp), joinUnits_cons u (v :: vs) (by simp)]
    simp [List.append_assoc]

theorem joinUnits_head_len (u : List Char) (us : List (List Char)) :
    u.length ≤ (joinUnits (u :: us)).length := by
  cases us with
  | nil => exact le_refl _
  | cons v vs => rw [joinUnits_cons _ _ (by simp)]; simp

theorem joinUnits_tail_len (u : List Char) (us : List (List Char)) :
    (joinUnits us).length ≤ (joinUnits (u :: us)).length := by
  cases us with
  | nil => simp [joinUnits]
  | cons v vs =>
    rw [joinUnits_cons u (v :: vs) (by simp)]
    simp
    omega

/-- While the whole block (current buffer plus remaining units) still fits
the bound, the packing loop only accumulates: nothing is flushed and the
final buffer is the join of the block. -/
theorem emitted_block (M : Int) :
    ∀ (us : List (List Char)) (buf : List Char), buf ≠ [] →
      ((joinUnits (buf :: us)).length : Int) ≤ M →
      emitted M buf us = [] ∧ bufAfter M buf us = joinUnits (buf :: us)
  | [], buf, _, _ => ⟨rfl, rfl⟩
  | u :: us, buf, hb, hfit => by
    have hlen : (joinUnits (buf :: u :: us)).length =
        buf.length + 2 + (joinUnits (u :: us)).length := by
      rw [joinUnits_cons buf (u :: us) (by simp)]
      simp
      omega
    have hfit1 : (buf.length : Int) + u.length + 2 ≤ M := by
      have h1 := joinUnits_head_len u us
      have h2 : ((joinUnits (buf :: u :: us)).length : Int) =
          (buf.length : Int) + 2 + ((joinUnits (u :: us)).length : Int) := by
        exact_mod_cast congrArg (Nat.cast : Nat → Int) hlen
      have h3 : ((u.length : Nat) : Int) ≤ ((joinUnits (u :: us)).length : Int) := by
        exact_mod_cast h1
      omega
    have hstep : packStepBuf M buf u = buf ++ '\n' :: '\n' :: u := by
      rw [packStepBuf, if_pos hfit1, joinBuf, if_neg hb]
    have hout : packStepOut M buf u = [] := by
      rw [packStepOut, if_pos hfit1]
    rw [emitted, bufAfter, hstep, hout, List.nil_append]
    have hmerge := joinUnits_merge buf u us
    have hne : buf ++ '\n' :: '\n' :: u ≠ [] := by simp
    have hfit2 : ((joinUnits ((buf ++ '\n' :: '\n' :: u) :: us)).length : Int) ≤ M := by
      rw [hmerge, ← joinUnits_cons buf (u :: us) (by simp)]
      exact hfit
    obtain ⟨h1, h2⟩ := emitted_block M us (buf ++ '\n' :: '\n' :: u) hne hfit2
    refine ⟨h1, ?_⟩
    rw [h2, hmerge, joinUnits_cons buf (u :: us) (by simp)]

/-- Starting from an empty buffer, a fitting block is consumed without any
flush. -/
theorem emitted_empty_start (M : Int) :
    ∀ (G : List (List Char)), ((joinUnits G).length : Int) ≤ M →
      emitted M [] G = []
  | [], _ => rfl
  | u :: us, hfit => by
    rw [emitted, packStepOut_empty, packStepBuf_empty, List.nil_append]
    by_cases hu : u = []
    · subst hu
      refine emitted_empty_start M us (le_trans ?_ hfit)
      exact_mod_cast joinUnits_tail_len [] us
    · exact (emitted_block M us u hu hfit).1

/-- From any buffer, a fitting unit block causes at most one flush. -/
theorem emitted_fit_one (M : Int) :
    ∀ (G : List (List Char)) (buf : List Char), ((joinUnits G).length : Int) ≤ M →
      (emitted M buf G).length ≤ 1
  | [], _, _ => by rw [emitted]; exact Nat.zero_le _
  | u :: us, buf, hfit => by
    rw [emitted, List.length_append]
    have hfitus : ((joinUnits us).length : Int) ≤ M :=
      le_trans (by exact_mod_cast joinUnits_tail_len u us) hfit
    by_cases h1 : (buf.length : Int) + u.length + 2 ≤ M
    · have hout : packStepOut M buf u = [] := by rw [packStepOut, if_pos h1]
      have hbuf : packStepBuf M buf u = joinBuf buf u := by rw [packStepBuf, if_pos h1]
      rw [hout, hbuf]
      simp only [List.length_nil, Nat.zero_add]
      exact emitted_fit_one M us (joinBuf buf u) hfitus
    · have hout : (packStepOut M buf u).length ≤ 1 := by
        rw [packStepOut, if_neg h1]
        by_cases h2 : buf = [] <;> simp [h2]
      have hbuf : packStepBuf M buf u = u := by rw [packStepBuf, if_neg h1]
      rw [hbuf]
      have hrest : emitted M u us = [] := by
        by_cases hu : u = []
        · subst hu
          exact emitted_empty_start M us hfitus
        · exact (emitted_block M us u hu hfit).1
      rw [hrest]
      simpa using hout

theorem emitted_singleton_empty (M : Int) (u : List Char) :
    emitted M [] [u] = [] := by
  rw [emitted, packStepOut_empty, emitted, List.append_nil]

theorem emitted_singleton_le (M : Int) (buf u : List Char) :
    (emitted M buf [u]).length ≤ 1 := by
  rw [emitted, emitted, List.append_nil, packStepOut]
  by_cases h1 : (buf.length : Int) + u.length + 2 ≤ M
  · rw [if_pos h1]; exact Nat.zero_le _
  · rw [if_neg h1]
    by_cases h2 : buf = [] <;> simp [h2]

/-- Stays-ahead bound: if the unit list decomposes into `n` groups, each of
which fits the bound or is a single unit, the greedy packing loop produces
at most `n` segments (plus the buffer it started with, if any). -/
theorem packGo_groups (M : Int) :
    ∀ (Gs : List (List (List Char))) (buf : List Char),
      (∀ G ∈ Gs, GroupOK M G) →
      (packGo M buf Gs.flatten).length ≤ Gs.length + (if buf = [] then 0 else 1)
  | [], buf, _ => by
    by_cases h : buf = [] <;> simp [h, packGo, List.flatten]
  | G :: Gs, buf, h => by
    rw [List.flatten_cons, packGo_append, List.length_append]
    have hG := h G (by simp)
    have hGs : ∀ G' ∈ Gs, GroupOK M G' := fun G' hG' => h G' (by simp [hG'])
    have hIH := packGo_groups M Gs (bufAfter M buf G) hGs
    have hemit : (emitted M buf G).length ≤ if buf = [] then 0 else 1 := by
      rcases hG.2 with hfit | ⟨u, rfl⟩
      · by_cases hb : buf = []
        · subst hb
          rw [emitted_empty_start M G hfit]
          simp
      
        · simpa [hb] using emitted_fit_one M G buf hfit
      · by_cases hb : buf = []
        · subst hb
          rw [emitted_singleton_empty]
          simp
        · simpa [hb] using emitted_singleton_le M buf u
    rw [List.length_cons]
    by_cases hb : buf = []
    · rw [if_pos hb] at hemit ⊢
      by_cases hba : bufAfter M buf G = []
      · rw [if_pos hba] at hIH; omega
      · rw [if_neg hba] at hIH; omega
    · rw [if_neg hb] at hemit ⊢
      by_cases hba : bufAfter M buf G = []
      · rw [if_pos hba] at hIH; omega
      · rw [if_neg hba] at hIH; omega

theorem splitter_nil (b : Bool) (acc : List Char) : splitter b acc [] = [acc.reverse] := by
  rw [splitter.eq_def]

theorem splitter_cons (b : Bool) (acc : List Char) (c : Char) (rest : List Char) :
    splitter b acc (c :: rest) =
      if c = '\n' ∧ rest.head? = some '\n' then
        acc.reverse :: splitter true [] (rest.dropWhile (fun x => decide (x = '\n')))
      else if c = '#' ∧ b = true ∧
          (∃ w, (rest.dropWhile (fun x => decide (x = '#'))).head? = some w ∧
            pySpace w = true) then
        acc.reverse ::
          splitter (decide ((rest.dropWhile (fun x => decide (x = '#'))).head? = some '\n')) []
            (rest.dropWhile (fun x => decide (x = '#'))).tail
      else splitter (decide (c = '\n')) (c :: acc) rest := by
  rw [splitter.eq_def]

theorem splitter_ne_nil : ∀ (n : Nat) (l : List Char) (b : Bool) (acc : List Char),
    l.length ≤ n → splitter b acc l ≠ []
  | _, [], b, acc, _ => by rw [splitter_nil]; simp
  | 0, c :: rest, _, _, h => by simp at h
  | n + 1, c :: rest, b, acc, h => by
    rw [splitter_cons]
    by_cases h1 : c = '\n' ∧ rest.head? = some '\n'
    · rw [if_pos h1]; simp
    · rw [if_neg h1]
      by_cases h2 : c = '#' ∧ b = true ∧
          (∃ w, (rest.dropWhile (fun x => decide (x = '#'))).head? = some w ∧
            pySpace w = true)
      · rw [if_pos h2]; simp
      · rw [if_neg h2]
        exact splitter_ne_nil n rest _ _ (by simpa using Nat.le_of_succ_le_succ h)

theorem dropWhile_head_ne (l : List Char) (h : l.head? ≠ some '\n') :
    l.dropWhile (fun x => decide (x = '\n')) = l := by
  cases l with
  | nil => rfl
  | cons c rest =>
    have : ¬ c = '\n' := fun hc => h (by rw [hc]; rfl)
    rw [List.dropWhile_cons_of_neg (by simpa using this)]

/-- On a fragment with no `#` and no adjacent newlines, the splitter never
matches: it returns the single fragment. -/
theorem splitter_no_match : ∀ (n : Nat) (l : List Char) (b : Bool) (acc : List Char),
    l.length ≤ n → '#' ∉ l → noNN l → splitter b acc l = [acc.reverse ++ l]
  | _, [], b, acc, _, _, _ => by rw [splitter_nil]; simp
  | 0, c :: rest, _, _, h, _, _ => by simp at h
  | n + 1, c :: rest, b, acc, h, hhash, hnn => by
    have h1 : ¬ (c = '\n' ∧ rest.head? = some '\n') := by
      rintro ⟨rfl, hr⟩
      cases rest with
      | nil => simp at hr
      | cons d rest' =>
        simp only [List.head?_cons, Option.some.injEq] at hr
        subst hr
        exact (List.chain'_cons.mp hnn).1 ⟨rfl, rfl⟩
    have h2 : ¬ (c = '#' ∧ b = true ∧
        (∃ w, (rest.dropWhile (fun x => decide (x = '#'))).head? = some w ∧
          pySpace w = true)) := by
      rintro ⟨rfl, _, _⟩
      exact hhash (by simp)
    rw [splitter_cons, if_neg h1, if_neg h2,
      splitter_no_match n rest _ (c :: acc) (by simpa using Nat.le_of_succ_le_succ h)
        (fun hc => hhash (by simp [hc])) hnn.tail]
    simp

theorem splitter_cost : ∀ (n : Nat) (l : List Char) (b : Bool) (acc : List Char),
    l.length ≤ n → (joinUnits (splitter b acc l)).length ≤ acc.length + l.length
  | _, [], b, acc, _ => by
    rw [splitter_nil]
    simp [joinUnits]
  | 0, c :: rest, _, _, h => by simp at h
  | n + 1, c :: rest, b, acc, h => by
    have hn : rest.length ≤ n := by simpa using Nat.le_of_succ_le_succ h
    rw [splitter_cons]
    by_cases h1 : c = '\n' ∧ rest.head? = some '\n'
    · rw [if_pos h1]
      have hne := splitter_ne_nil n (rest.dropWhile (fun x => decide (x = '\n'))) true []
        (le_trans (List.dropWhile_suffix _).length_le hn)
      rw [joinUnits_cons _ _ hne, List.length_append]
      have hIH := splitter_cost n (rest.dropWhile (fun x => decide (x = '\n'))) true []
        (le_trans (List.dropWhile_suffix _).length_le hn)
      have hdrop : (rest.dropWhile (fun x => decide (x = '\n'))).length + 1 ≤ rest.length := by
        obtain ⟨hc, hr⟩ := h1
        cases rest with
        | nil => simp at hr
        | cons d rest' =>
          simp only [List.head?_cons, Option.some.injEq] at hr
          subst hr
          rw [List.dropWhile_cons_of_pos (by simp)]
          simpa using Nat.succ_le_succ (List.dropWhile_suffix
            (l := rest') (fun x => decide (x = '\n'))).length_le
      simp only [List.length_reverse, List.length_cons, List.length_nil] at hIH ⊢
      omega
    · rw [if_neg h1]
      by_cases h2 : c = '#' ∧ b = true ∧
          (∃ w, (rest.dropWhile (fun x => decide (x = '#'))).head? = some w ∧
            pySpace w = true)
      · rw [if_pos h2]
        have hlen2 : (rest.dropWhile (fun x => decide (x = '#'))).tail.length + 1 ≤
            rest.length := by
          obtain ⟨_, _, w, hw, _⟩ := h2
          have h3 : rest.dropWhile (fun x => decide (x = '#')) ≠ [] := by
            intro hnil; rw [hnil] at hw; simp at hw
          have h4 := (List.dropWhile_suffix
            (l := rest) (fun x => decide (x = '#'))).length_le
          cases h5 : rest.dropWhile (fun x => decide (x = '#')) with
          | nil => exact absurd h5 h3
          | cons y ys =>
            rw [h5] at h4
            simp only [List.length_cons] at h4
            simp only [List.tail_cons]
            omega
        have hne := splitter_ne_nil n (rest.dropWhile (fun x => decide (x = '#'))).tail
          (decide ((rest.dropWhile (fun x => decide (x = '#'))).head? = some '\n')) []
          (by omega)
        rw [joinUnits_cons _ _ hne, List.length_append]
        have hIH := splitter_cost n (rest.dropWhile (fun x => decide (x = '#'))).tail
          (decide ((rest.dropWhile (fun x => decide (x = '#'))).head? = some '\n')) []
          (by omega)
        simp only [List.length_reverse, List.length_cons, List.length_nil] at hIH ⊢
        omega
      · rw [if_neg h2]
        have hIH := splitter_cost n rest (decide (c = '\n')) (c :: acc) hn
        simp only [List.length_cons] at hIH ⊢
        omega

theorem dropWhile_append_of_last (A : List Char) (t : List Char) (hA : A ≠ [])
    (hlast : A.getLast? ≠ some '\n') :
    (A ++ t).dropWhile (fun x => decide (x = '\n')) =
      A.dropWhile (fun x => decide (x = '\n')) ++ t := by
  refine dropWhile_append_of_neg _ t A ?_
  have hz : A.getLast? = some (A.getLast hA) := List.getLast?_eq_getLast_of_ne_nil hA
  refine ⟨A.getLast hA, getLast?_mem_of_eq hz, ?_⟩
  have : ¬ A.getLast hA = '\n' := fun hc => hlast (by rw [hz, hc])
  simpa using this

/-- Composition of the regex scan at a `"\n\n"` separator: when the left
part contains no `#` and does not end in a newline, and the right part does
not begin with a newline, the scan of `A ++ "\n\n" ++ B` is the scan of `A`
followed by the scan of `B` (the separator is matched exactly once, by the
`\n{2,}` alternative). -/
theorem splitter_sep : ∀ (n : Nat) (A B : List Char) (b : Bool) (acc : List Char),
    A.length ≤ n → A ≠ [] → A.getLast? ≠ some '\n' → '#' ∉ A →
    B.head? ≠ some '\n' →
    splitter b acc (A ++ '\n' :: '\n' :: B) = splitter b acc A ++ splitter true [] B
  | _, [], _, _, _, _, hA, _, _, _ => absurd rfl hA
  | 0, c :: A', _, _, _, h, _, _, _, _ => by simp at h
  | n + 1, c :: A', B, b, acc, h, _, hlast, hhash, hB => by
    have hn : A'.length ≤ n := by simpa using Nat.le_of_succ_le_succ h
    have hc_hash : ¬ c = '#' := fun hc => hhash (by simp [hc])
    by_cases hA'nil : A' = []
    · subst hA'nil
      have hc_nl : ¬ c = '\n' := by
        intro hc
        exact hlast (by rw [hc]; rfl)
      have h1 : ¬ (c = '\n' ∧ ('\n' :: '\n' :: B).head? = some '\n') := fun hx => hc_nl hx.1
      have h2 : ¬ (c = '#' ∧ b = true ∧
          (∃ w, (('\n' :: '\n' :: B).dropWhile (fun x => decide (x = '#'))).head? = some w ∧
            pySpace w = true)) := fun hx => hc_hash hx.1
      rw [List.cons_append, List.nil_append, splitter_cons, if_neg h1, if_neg h2]
      have h3 : ('\n' : Char) = '\n' ∧ ('\n' :: B).head? = some '\n' := ⟨rfl, rfl⟩
      rw [splitter_cons, if_pos h3, List.dropWhile_cons_of_pos (by simp),
        dropWhile_head_ne B hB]
      have h4 : ¬ ((c : Char) = '\n' ∧ ([] : List Char).head? = some '\n') := fun hx => hc_nl hx.1
      have h5 : ¬ (c = '#' ∧ b = true ∧
          (∃ w, (([] : List Char).dropWhile (fun x => decide (x = '#'))).head? = some w ∧
            pySpace w = true)) := fun hx => hc_hash hx.1
      rw [splitter_cons, if_neg h4, if_neg h5, splitter_nil, List.singleton_append]
    · have hA'ne : A' ≠ [] := hA'nil
      have hlast' : A'.getLast? ≠ some '\n' := by
        intro hx
        refine hlast ?_
        rw [show (c :: A') = [c] ++ A' from rfl, List.getLast?_append_of_ne_nil _ hA'ne]
        exact hx
      have hhash' : '#' ∉ A' := fun hx => hhash (by simp [hx])
      have hhead_eq : (A' ++ '\n' :: '\n' :: B).head? = A'.head? :=
        List.head?_append_of_ne_nil A' hA'ne
      by_cases h1 : c = '\n' ∧ A'.head? = some '\n'
      · have h1J : c = '\n' ∧ (A' ++ '\n' :: '\n' :: B).head? = some '\n' := by
          rw [hhead_eq]; exact h1
        rw [List.cons_append, splitter_cons, if_pos h1J, splitter_cons, if_pos h1]
        have hz : A'.getLast? = some (A'.getLast hA'ne) :=
          List.getLast?_eq_getLast_of_ne_nil hA'ne
        have hzne : ¬ A'.getLast hA'ne = '\n' := fun hcon => hlast' (by rw [hz, hcon])
        have hmem : ∃ x ∈ A', (fun x => decide (x = '\n')) x = false :=
          ⟨A'.getLast hA'ne, getLast?_mem_of_eq hz, by simpa using hzne⟩
        rw [dropWhile_append_of_last A' ('\n' :: '\n' :: B) hA'ne hlast']
        have hA2ne : A'.dropWhile (fun x => decide (x = '\n')) ≠ [] :=
          dropWhile_ne_nil_of_mem _ A' hmem
        have hA2last : (A'.dropWhile (fun x => decide (x = '\n'))).getLast? ≠ some '\n' := by
          rw [getLast?_dropWhile _ A' hA2ne]
          exact hlast'
        have hA2hash : '#' ∉ A'.dropWhile (fun x => decide (x = '\n')) :=
          fun hx => hhash' ((List.dropWhile_suffix _).subset hx)
        have hA2len : (A'.dropWhile (fun x => decide (x = '\n'))).length ≤ n :=
          le_trans (List.dropWhile_suffix _).length_le hn
        rw [splitter_sep n _ B true [] hA2len hA2ne hA2last hA2hash hB,
          List.cons_append]
      · have h1J : ¬ (c = '\n' ∧ (A' ++ '\n' :: '\n' :: B).head? = some '\n') := by
          rw [hhead_eq]; exact h1
        have h2J : ¬ (c = '#' ∧ b = true ∧
            (∃ w, ((A' ++ '\n' :: '\n' :: B).dropWhile
              (fun x => decide (x = '#'))).head? = some w ∧ pySpace w = true)) :=
          fun hx => hc_hash hx.1
        have h2A : ¬ (c = '#' ∧ b = true ∧
            (∃ w, (A'.dropWhile (fun x => decide (x = '#'))).head? = some w ∧
              pySpace w = true)) := fun hx => hc_hash hx.1
        rw [List.cons_append, splitter_cons, if_neg h1J, if_neg h2J,
          splitter_cons, if_neg h1, if_neg h2A]
        exact splitter_sep n A' B (decide (c = '\n')) (c :: acc) hn hA'ne hlast' hhash' hB

theorem joinUnits_head (s : List Char) (ss : List (List Char)) (hs : s ≠ []) :
    (joinUnits (s :: ss)).head? = s.head? := by
  cases ss with
  | nil => rfl
  | cons v vs =>
    rw [joinUnits_cons _ _ (by simp)]
    exact List.head?_append_of_ne_nil s hs

/-- The scan of segments joined with `"\n\n"` is the concatenation of the
per-segment scans, when every segment is non-empty, `#`-free and neither
begins nor ends with a newline. -/
theorem splitter_joinUnits : ∀ (ss : List (List Char)), ss ≠ [] →
    (∀ s ∈ ss, s ≠ [] ∧ s.getLast? ≠ some '\n' ∧ s.head? ≠ some '\n' ∧ '#' ∉ s) →
    splitter true [] (joinUnits ss) = (ss.map (fun s => splitter true [] s)).flatten
  | [], h, _ => absurd rfl h
  | [s], _, _ => by simp [joinUnits]
  | s :: s' :: ss, _, hprops => by
    obtain ⟨hne, hlast, _, hhash⟩ := hprops s (by simp)
    have hs' := hprops s' (by simp)
    have hBhead : (joinUnits (s' :: ss)).head? ≠ some '\n' := by
      rw [joinUnits_head s' ss hs'.1]
      exact hs'.2.2.1
    rw [joinUnits_cons s (s' :: ss) (by simp),
      splitter_sep (s.length) s (joinUnits (s' :: ss)) true [] (le_refl _) hne hlast
        hhash hBhead,
      splitter_joinUnits (s' :: ss) (by simp) (fun x hx => hprops x (by simp [hx]))]
    simp

theorem chain_drop_left {R : Char → Char → Prop} :
    ∀ (t l : List Char), List.Chain' R (t ++ l) → List.Chain' R l := by
  intro t l h
  exact (List.chain'_append.mp h).2.1

theorem noNN_reverse (l : List Char) (h : noNN l) : noNN l.reverse := by
  rw [noNN, List.chain'_reverse]
  exact h.imp (fun hab => by tauto)

theorem noNN_dropWhile (p : Char → Bool) (l : List Char) (h : noNN l) :
    noNN (l.dropWhile p) := by
  obtain ⟨t, ht⟩ := List.dropWhile_suffix (l := l) p
  rw [noNN]
  refine chain_drop_left t _ ?_
  rw [ht]
  exact h

theorem noNN_pyStrip (l : List Char) (h : noNN l) : noNN (pyStrip l) := by
  unfold pyStrip
  exact noNN_reverse _ (noNN_dropWhile _ _ (noNN_reverse _ (noNN_dropWhile _ _ h)))

theorem pyStrip_subset (l : List Char) (c : Char) (hc : c ∈ pyStrip l) : c ∈ l := by
  unfold pyStrip at hc
  rw [List.mem_reverse] at hc
  have h1 := (List.dropWhile_suffix (l := (l.dropWhile pySpace).reverse) pySpace).subset hc
  rw [List.mem_reverse] at h1
  exact (List.dropWhile_suffix (l := l) pySpace).subset h1

theorem pyStrip_head_not (l : List Char) (c : Char)
    (hc : (pyStrip l).head? = some c) : pySpace c = false := by
  unfold pyStrip at hc
  rw [List.head?_reverse] at hc
  have hne : (l.dropWhile pySpace).reverse.dropWhile pySpace ≠ [] := by
    intro hnil
    rw [hnil] at hc
    simp at hc
  rw [getLast?_dropWhile pySpace _ hne, List.getLast?_reverse] at hc
  exact head?_dropWhile_not pySpace l c hc

theorem pyStrip_last_not (l : List Char) (c : Char)
    (hc : (pyStrip l).getLast? = some c) : pySpace c = false := by
  unfold pyStrip at hc
  rw [List.getLast?_reverse] at hc
  exact head?_dropWhile_not pySpace _ c hc

/-- The characters of every fragment come from the accumulator or the
input. -/
theorem splitter_chars : ∀ (n : Nat) (l : List Char) (b : Bool) (acc : List Char),
    l.length ≤ n → ∀ f ∈ splitter b acc l, ∀ c ∈ f, c ∈ acc ∨ c ∈ l
  | _, [], b, acc, _ => by
    rw [splitter_nil]
    intro f hf c hc
    rw [List.mem_singleton] at hf
    subst hf
    exact Or.inl (List.mem_reverse.mp hc)
  | 0, c0 :: rest, _, _, h => by simp at h
  | n + 1, c0 :: rest, b, acc, h => by
    have hn : rest.length ≤ n := by simpa using Nat.le_of_succ_le_succ h
    rw [splitter_cons]
    by_cases h1 : c0 = '\n' ∧ rest.head? = some '\n'
    · rw [if_pos h1]
      intro f hf c hc
      rcases List.mem_cons.mp hf with rfl | hf'
      · exact Or.inl (List.mem_reverse.mp hc)
      · rcases splitter_chars n _ true []
          (le_trans (List.dropWhile_suffix _).length_le hn) f hf' c hc with h2 | h2
        · simp at h2
        · exact Or.inr (by
            simp only [List.mem_cons]
            exact Or.inr ((List.dropWhile_suffix _).subset h2))
    · rw [if_neg h1]
      by_cases h2 : c0 = '#' ∧ b = true ∧
          (∃ w, (rest.dropWhile (fun x => decide (x = '#'))).head? = some w ∧
            pySpace w = true)
      · rw [if_pos h2]
        intro f hf c hc
        rcases List.mem_cons.mp hf with rfl | hf'
        · exact Or.inl (List.mem_reverse.mp hc)
        · have hlen : (rest.dropWhile (fun x => decide (x = '#'))).tail.length ≤ n := by
            refine le_trans ?_ hn
            refine le_trans (Nat.le_trans (Nat.le_of_eq (List.length_tail _))
              (Nat.sub_le _ _)) ?_
            exact (List.dropWhile_suffix _).length_le
          rcases splitter_chars n _ _ [] hlen f hf' c hc with h3 | h3
          · simp at h3
          · have h4 : c ∈ rest.dropWhile (fun x => decide (x = '#')) := by
              cases hd : rest.dropWhile (fun x => decide (x = '#')) with
              | nil => rw [hd] at h3; simp at h3
              | cons y ys =>
                rw [hd] at h3
                simp only [List.tail_cons] at h3
                exact List.mem_cons_of_mem y h3
            have h5 : c ∈ rest :=
              (List.dropWhile_suffix (fun x => decide (x = '#'))).subset h4
            exact Or.inr (by simp [h5])
      · rw [if_neg h2]
        intro f hf c hc
        rcases splitter_chars n rest _ (c0 :: acc) hn f hf c hc with h3 | h3
        · rcases List.mem_cons.mp h3 with rfl | h4
          · exact Or.inr (by simp)
          · exact Or.inl h4
        · exact Or.inr (by simp [h3])

/-- Every fragment the splitter emits has no two adjacent newlines: a
`\n{2,}` match consumes the whole newline run, and a `#+\s` match consumes
the whitespace character after the hash run. -/
theorem splitter_noNN : ∀ (n : Nat) (l : List Char) (b : Bool) (acc : List Char),
    l.length ≤ n → noNN acc →
    (acc.head? = some '\n' → l.head? ≠ some '\n') →
    ∀ f ∈ splitter b acc l, noNN f
  | _, [], b, acc, _, hacc, _ => by
    rw [splitter_nil]
    intro f hf
    rw [List.mem_singleton] at hf
    subst hf
    exact noNN_reverse acc hacc
  | 0, c0 :: rest, _, _, h, _, _ => by simp at h
  | n + 1, c0 :: rest, b, acc, h, hacc, hcross => by
    have hn : rest.length ≤ n := by simpa using Nat.le_of_succ_le_succ h
    rw [splitter_cons]
    by_cases h1 : c0 = '\n' ∧ rest.head? = some '\n'
    · rw [if_pos h1]
      intro f hf
      rcases List.mem_cons.mp hf with rfl | hf'
      · exact noNN_reverse acc hacc
      · refine splitter_noNN n _ true []
          (le_trans (List.dropWhile_suffix _).length_le hn) List.chain'_nil
          (by simp) f hf'
    · rw [if_neg h1]
      by_cases h2 : c0 = '#' ∧ b = true ∧
          (∃ w, (rest.dropWhile (fun x => decide (x = '#'))).head? = some w ∧
            pySpace w = true)
      · rw [if_pos h2]
        intro f hf
        rcases List.mem_cons.mp hf with rfl | hf'
        · exact noNN_reverse acc hacc
        · have hlen : (rest.dropWhile (fun x => decide (x = '#'))).tail.length ≤ n := by
            refine le_trans ?_ hn
            refine le_trans (Nat.le_trans (Nat.le_of_eq (List.length_tail _))
              (Nat.sub_le _ _)) ?_
            exact (List.dropWhile_suffix _).length_le
          exact splitter_noNN n _ _ [] hlen List.chain'_nil (by simp) f hf'
      · rw [if_neg h2]
        refine splitter_noNN n rest _ (c0 :: acc) hn ?_ ?_
        · rw [noNN, List.chain'_cons']
          refine ⟨?_, hacc⟩
          intro y hy
          rintro ⟨hc0, rfl⟩
          exact hcross hy (by simp [hc0])
        · intro hhead
          simp only [List.head?_cons, Option.some.injEq] at hhead
          intro hrest
          exact h1 ⟨hhead, hrest⟩

theorem joinBuf_mem (buf part : List Char) (x : Char) (hx : x ∈ joinBuf buf part) :
    x ∈ buf ∨ x = '\n' ∨ x ∈ part := by
  rw [joinBuf] at hx
  by_cases h : buf = []
  · rw [if_pos h] at hx
    exact Or.inr (Or.inr hx)
  · rw [if_neg h] at hx
    rcases List.mem_append.mp hx with h1 | h1
    · exact Or.inl h1
    · rcases List.mem_cons.mp h1 with rfl | h2
      · exact Or.inr (Or.inl rfl)
      · rcases List.mem_cons.mp h2 with rfl | h3
        · exact Or.inr (Or.inl rfl)
        · exact Or.inr (Or.inr h3)

theorem packGo_not_mem (M : Int) (x : Char) (hx : ¬ x = '\n') :
    ∀ (parts : List (List Char)) (buf : List Char),
      (∀ p ∈ parts, x ∉ p) → x ∉ buf → ∀ s ∈ packGo M buf parts, x ∉ s
  | [], buf, _, hbuf, s, hs => by
    rw [packGo] at hs
    by_cases h2 : buf = []
    · rw [if_pos h2] at hs; simp at hs
    · rw [if_neg h2, List.mem_singleton] at hs
      subst hs
      exact hbuf
  | part :: parts, buf, hp, hbuf, s, hs => by
    rw [packGo_step] at hs
    rcases List.mem_append.mp hs with h1 | h1
    · rw [packStepOut] at h1
      by_cases hc : (buf.length : Int) + part.length + 2 ≤ M
      · rw [if_pos hc] at h1; simp at h1
      · rw [if_neg hc] at h1
        by_cases h2 : buf = []
        · rw [if_pos h2] at h1; simp at h1
        · rw [if_neg h2, List.mem_singleton] at h1
          subst h1
          exact hbuf
    · refine packGo_not_mem M x hx parts (packStepBuf M buf part)
        (fun p hps => hp p (by simp [hps])) ?_ s h1
      rw [packStepBuf]
      by_cases hc : (buf.length : Int) + part.length + 2 ≤ M
      · rw [if_pos hc]
        intro hmem
        rcases joinBuf_mem buf part x hmem with h3 | h3 | h3
        · exact hbuf h3
        · exact hx h3
        · exact hp part (by simp) h3
      · rw [if_neg hc]
        exact hp part (by simp)

theorem noHash_not_mem (T : String) (hT : noHash T = true) : '#' ∉ T.data := by
  rw [noHash, List.all_eq_true] at hT
  intro hmem
  have := hT '#' hmem
  simp at this

theorem chunk_seg_mem (T : String) (M : Int) (s : List Char) (hs : s ∈ chunkL T.data M) :
    s ≠ [] ∧ ∃ b, s = pyStrip b ∧ b ∈ packGo M [] (splitUnits T.data) := by
  rw [chunkL] at hs
  simp only [List.mem_filter, List.mem_map, decide_eq_true_eq] at hs
  obtain ⟨⟨b, hb, rfl⟩, hne⟩ := hs
  exact ⟨hne, b, rfl, hb⟩

theorem chunk_hash_free (T : String) (M : Int) (hT : noHash T = true) :
    ∀ s ∈ chunkL T.data M, '#' ∉ s := by
  intro s hs
  obtain ⟨_, b, rfl, hb⟩ := chunk_seg_mem T M s hs
  intro hmem
  have hb_mem : '#' ∈ b := pyStrip_subset b '#' hmem
  have hunits : ∀ p ∈ splitUnits T.data, '#' ∉ p := by
    intro p hp hcp
    rcases splitter_chars T.data.length T.data true [] (le_refl _) p hp '#' hcp with h1 | h1
    · simp at h1
    · exact noHash_not_mem T hT h1
  exact packGo_not_mem M '#' (by decide) (splitUnits T.data) [] hunits (by simp) b hb hb_mem

theorem chunk_seg_props (T : String) (M : Int) (hT : noHash T = true) :
    ∀ s ∈ chunkL T.data M,
      s ≠ [] ∧ s.getLast? ≠ some '\n' ∧ s.head? ≠ some '\n' ∧ '#' ∉ s := by
  intro s hs
  obtain ⟨hne, b, rfl, _⟩ := chunk_seg_mem T M s hs
  refine ⟨hne, ?_, ?_, chunk_hash_free T M hT _ hs⟩
  · intro hc
    have := pyStrip_last_not b '\n' hc
    simp [pySpace] at this
  · intro hc
    have := pyStrip_head_not b '\n' hc
    simp [pySpace] at this

theorem chunk_groupOK (T : String) (M : Int) (hM : 0 < M) (hT : noHash T = true) :
    ∀ s ∈ chunkL T.data M, GroupOK M (splitter true [] s) := by
  intro s hs
  obtain ⟨hne, b, hsb, hb⟩ := chunk_seg_mem T M s hs
  refine ⟨splitter_ne_nil s.length s true [] (le_refl _), ?_⟩
  by_cases hfit : (s.length : Int) ≤ M
  · left
    have := splitter_cost s.length s true [] (le_refl _)
    simp only [List.length_nil, Nat.zero_add] at this
    calc ((joinUnits (splitter true [] s)).length : Int) ≤ (s.length : Int) := by
          exact_mod_cast this
      _ ≤ M := hfit
  · right
    have hbig : M < (s.length : Int) := lt_of_not_ge hfit
    have hbU : b ∈ splitUnits T.data := by
      rcases packGo_mem M (splitUnits T.data) (splitUnits T.data) [] (Or.inl rfl)
        (fun p hp => hp) b hb with h1 | h1
      · exfalso
        have hlen : s.length ≤ b.length := by rw [hsb]; exact pyStrip_length_le b
        have : (s.length : Int) ≤ (b.length : Int) := by exact_mod_cast hlen
        omega
      · exact h1
    have hbNN : noNN b :=
      splitter_noNN T.data.length T.data true [] (le_refl _) List.chain'_nil
        (by simp) b hbU
    have hsNN : noNN s := by rw [hsb]; exact noNN_pyStrip b hbNN
    have hshash : '#' ∉ s := chunk_hash_free T M hT s hs
    refine ⟨s, ?_⟩
    rw [splitter_no_match s.length s true [] (le_refl _) hshash hsNN]
    simp

theorem intercalate_go_data (sep : String) : ∀ (ss : List String) (a : String),
    (String.intercalate.go a sep ss).data =
      a.data ++ (ss.map (fun x => sep.data ++ x.data)).flatten
  | [], a => by simp [String.intercalate.go]
  | b :: bs, a => by
    rw [show String.intercalate.go a sep (b :: bs) =
        String.intercalate.go (a ++ sep ++ b) sep bs from rfl,
      intercalate_go_data sep bs (a ++ sep ++ b)]
    simp [String.data_append, List.append_assoc]

theorem joinUnits_as_flatten : ∀ (a : List Char) (rs : List (List Char)),
    joinUnits (a :: rs) = a ++ (rs.map (fun x => '\n' :: '\n' :: x)).flatten
  | _, [] => by simp [joinUnits]
  | a, r :: rs => by
    rw [joinUnits_cons a (r :: rs) (by simp), joinUnits_as_flatten r rs]
    simp

theorem intercalate_data (ss : List (List Char)) :
    (String.intercalate "\n\n" (ss.map String.mk)).data = joinUnits ss := by
  cases ss with
  | nil => rfl
  | cons a rs =>
    rw [List.map_cons,
      show String.intercalate "\n\n" (String.mk a :: rs.map String.mk) =
        String.intercalate.go (String.mk a) "\n\n" (rs.map String.mk) from rfl,
      intercalate_go_data, joinUnits_as_flatten]
    simp [List.map_map, Function.comp_def]

theorem chunkL_nil_input (M : Int) : chunkL [] M = [] := by
  rw [chunkL, splitUnits, splitter_nil]
  show ((packGo M [] [[]]).map pyStrip).filter _ = _
  rw [packGo]
  split
  · rw [show joinBuf [] [] = [] from rfl, packGo]
    simp
  · rw [if_pos rfl, packGo]
    simp

/-- Under the INTENDED split semantics, for texts containing no `#`
character, re-chunking the `"\n\n"`-joined segments with the same bound
yields at most as many segments. (With `#` present the heading pattern can
consume a separator newline on re-split and the count can grow — see
`rechunk_count_can_grow_intended`.) -/
theorem rechunk_hash_free_intended (T : String) (M : Int) (hM : 0 < M)
    (hT : noHash T = true) :
    (basic_chunk (String.intercalate "\n\n" (basic_chunk T M)) M).length ≤
      (basic_chunk T M).length := by
  rw [basic_chunk, basic_chunk, List.length_map, List.length_map]
  have hdata : (String.intercalate "\n\n" ((chunkL T.data M).map String.mk)).data =
      joinUnits (chunkL T.data M) := intercalate_data _
  rw [hdata]
  by_cases hnil : chunkL T.data M = []
  · rw [hnil, show joinUnits [] = [] from rfl, chunkL_nil_input]
  · have hprops := chunk_seg_props T M hT
    have hsplit : splitUnits (joinUnits (chunkL T.data M)) =
        ((chunkL T.data M).map (fun s => splitter true [] s)).flatten := by
      rw [splitUnits]
      exact splitter_joinUnits _ hnil hprops
    rw [chunkL, hsplit]
    have hgroups := packGo_groups M
      ((chunkL T.data M).map (fun s => splitter true [] s)) []
      (fun G hG => by
        obtain ⟨s, hs, rfl⟩ := List.mem_map.mp hG
        exact chunk_groupOK T M hM hT s hs)
    rw [if_pos rfl, Nat.add_zero, List.length_map] at hgroups
    calc (((packGo M []
          (((chunkL T.data M).map (fun s => splitter true [] s)).flatten)).map
            pyStrip).filter (fun c => decide (¬ c = []))).length
        ≤ ((packGo M []
          (((chunkL T.data M).map (fun s => splitter true [] s)).flatten)).map
            pyStrip).length := List.length_filter_le _ _
      _ = (packGo M []
          (((chunkL T.data M).map (fun s => splitter true [] s)).flatten)).length :=
        List.length_map _ _
      _ ≤ (chunkL T.data M).length := hgroups

theorem rechunk_hash_free_intended_check :
    0 < (5 : Int) ∧ noHash "aaaa\n\nbb cc\n\ndd" = true ∧
    (basic_chunk (String.intercalate "\n\n" (basic_chunk "aaaa\n\nbb cc\n\ndd" 5)) 5).length ≤
      (basic_chunk "aaaa\n\nbb cc\n\ndd" 5).length :=
  ⟨by decide, by decide,
    rechunk_hash_free_intended "aaaa\n\nbb cc\n\ndd" 5 (by decide) (by decide)⟩

/-- Claim C9, code bug: the re-chunk pipeline
`basic_chunk("\n\n".join(basic_chunk(T, M)), M)` never yields a second
segment count to compare with the first. On every Python able to import the
module, the inner `basic_chunk` call already raises the pattern-compile
`re.error`, so the whole pipeline errors for every text and every bound and
the claimed count inequality describes runs the program cannot exhibit.
(Even under the intended split semantics the inequality is false in
general: see `rechunk_count_can_grow_intended`; it holds for `#`-free
texts, `rechunk_hash_free_intended`.) -/
theorem claim_C9_rechunk_errors :
    ∀ (T : String) (M : Int),
      (basic_chunk_run T M).bind
          (fun segs => basic_chunk_run (String.intercalate "\n\n" segs) M) =
        Except.error PyErr.reError :=
  fun _ _ => rfl
